import Mathlib

/-!
The scheduling core of hydra-evaluator.

A shallow embedding of `src/hydra-evaluator/hydra-evaluator.cc`.

* `time_t` and `int` values are unbounded `Int`s (signed overflow is undefined
  behaviour in C++; the model agrees with the code whenever the sums are
  representable).  The one narrowing conversion of the source
  (`jobset.checkInterval = row[...].as<time_t>()`, a `time_t` stored in an
  `int`) is kept as `toInt32`.
* `nix::Pid` is an `Int` whose value `-1` means "no child", as in the source
  (`jobset.pid != -1`, `jobset.pid.release()`).
* `std::map<JobsetName, Jobset>` is a list of records in ascending key order;
  `try_emplace` inserts at the key's position.
* The tables read by the SQL statements are lists of rows, the statements are
  list operations.
-/

namespace HydraEvaluator

/-! ## Data model -/

/-- The key type `std::pair<std::string, std::string>`: (project, jobset). -/
abbrev JobsetName := String × String

/-- The enum class `EvaluationStyle`. -/
inductive EvaluationStyle where
  | SCHEDULE
  | ONESHOT
  | ONE_AT_A_TIME
deriving DecidableEq, Repr

/-- The constant `std::numeric_limits<time_t>::max()` for a 64-bit `time_t`. -/
def notTriggered : Int := 9223372036854775807

/-- The record `Evaluator::Jobset`. -/
structure Jobset where
  name : JobsetName
  evaluation_style : Option EvaluationStyle
  lastCheckedTime : Int
  triggerTime : Int
  checkInterval : Int
  pid : Int
deriving DecidableEq, Repr

/-- The record `Evaluator::State`; `jobsets` is in ascending order of `name`. -/
structure State where
  runningEvals : Nat
  jobsets : List Jobset
deriving DecidableEq, Repr

/-- The members of `Evaluator` that are fixed after start-up. -/
structure Config where
  evalOne : Option JobsetName
  maxEvals : Nat
deriving DecidableEq, Repr

/-! ## The store tables read by `shouldEvaluate` -/

/-- A row of the table `JobsetEvals` (the columns the queries use). -/
structure JobsetEvalRow where
  id : Int
  project : String
  jobset : String
deriving DecidableEq, Repr

/-- A row of the table `JobsetEvalMembers`. -/
structure JobsetEvalMemberRow where
  eval : Int
  build : Int
deriving DecidableEq, Repr

/-- A row of the table `Builds` (the columns the queries use). -/
structure BuildRow where
  id : Int
  finished : Int
deriving DecidableEq, Repr

/-- The part of the store that `shouldEvaluate` queries. -/
structure EvalStore where
  jobsetEvals : List JobsetEvalRow
  jobsetEvalMembers : List JobsetEvalMemberRow
  builds : List BuildRow
deriving DecidableEq, Repr

/-- The first row of a column of ids under `order by id desc limit 1`. -/
def maxId : List Int → Option Int
  | [] => none
  | x :: xs =>
    match maxId xs with
    | none => some x
    | some m => some (if m ≤ x then x else m)

/-- The query `select id from JobsetEvals where project = $1 and jobset = $2
order by id desc limit 1`; `none` is the empty result. -/
def latestEval (db : EvalStore) (name : JobsetName) : Option Int :=
  maxId ((db.jobsetEvals.filter
    (fun e => decide (e.project = name.1) && decide (e.jobset = name.2))).map (fun e => e.id))

/-- The rows of `select id from Builds join JobsetEvalMembers on
(JobsetEvalMembers.build = Builds.id) where JobsetEvalMembers.eval = $1 and
builds.finished = 0` (before `limit 1`). -/
def unfinishedBuilds (db : EvalStore) (evaluation_id : Int) : List Int :=
  (db.builds.filter (fun b =>
    decide (b.finished = 0) &&
      db.jobsetEvalMembers.any (fun m => decide (m.build = b.id) && decide (m.eval = evaluation_id)))).map
    (fun b => b.id)

/-! ## `shouldEvaluate` -/

/-- The method `Evaluator::shouldEvaluate`; `now` is the value of `time(0)`. -/
def shouldEvaluate (db : EvalStore) (now : Int) (jobset : Jobset) : Bool :=
  if jobset.pid ≠ -1 then
    false
  else if jobset.triggerTime ≠ notTriggered then
    true
  else if jobset.checkInterval ≤ 0 then
    false
  else if jobset.lastCheckedTime + jobset.checkInterval ≤ now then
    if jobset.evaluation_style = some EvaluationStyle.ONE_AT_A_TIME then
      match latestEval db jobset.name with
      | none => true
      | some evaluation_id =>
        if (unfinishedBuilds db evaluation_id).isEmpty then true else false
    else
      true
  else
    false

/-! ## `readJobsets` -/

/-- A row of the result of the query in `readJobsets`.  The columns read with a
default (`as<T>(d)`) may be NULL; `checkInterval` is read without one. -/
structure Row where
  project : String
  name : String
  lastCheckedTime : Option Int
  triggerTime : Option Int
  checkInterval : Int
  jobset_enabled : Option Int
deriving DecidableEq, Repr

/-- Conversion of a `time_t` to `int` (two's complement, 32 bits). -/
def toInt32 (v : Int) : Int := (v + 2147483648) % 4294967296 - 2147483648

/-- The lexicographic comparison of two character sequences: the first
position where they differ decides, and a proper initial segment comes first.
(Characters are compared by code point, which orders strings as the bytes of
their UTF-8 encoding do.) -/
def ltChars : List Char → List Char → Bool
  | _, [] => false
  | [], _ :: _ => true
  | a :: as, b :: bs =>
    if a.toNat < b.toNat then true
    else if b.toNat < a.toNat then false
    else ltChars as bs

/-- The comparison `operator<` of `std::string`. -/
def strLt (a b : String) : Bool := ltChars a.data b.data

/-- The comparison `operator<` of `std::pair<std::string, std::string>`:
`a.first < b.first || (!(b.first < a.first) && a.second < b.second)`. -/
def nameLt (a b : JobsetName) : Bool :=
  strLt a.1 b.1 || (!strLt b.1 a.1 && strLt a.2 b.2)

/-- The aggregate `Jobset{name}`: every other member value-initialised, the
`Pid` empty. -/
def Jobset.fresh (name : JobsetName) : Jobset :=
  { name := name, evaluation_style := none, lastCheckedTime := 0, triggerTime := 0,
    checkInterval := 0, pid := -1 }

/-- The assignments of the loop body of `readJobsets` to the entry of the row
(the `switch` has no default case). -/
def applyRow (row : Row) (jobset : Jobset) : Jobset :=
  let jobset := { jobset with
    lastCheckedTime := row.lastCheckedTime.getD 0
    triggerTime := row.triggerTime.getD notTriggered
    checkInterval := toInt32 row.checkInterval }
  let enabled := row.jobset_enabled.getD 0
  if enabled = 1 then { jobset with evaluation_style := some EvaluationStyle.SCHEDULE }
  else if enabled = 2 then { jobset with evaluation_style := some EvaluationStyle.ONESHOT }
  else if enabled = 3 then { jobset with evaluation_style := some EvaluationStyle.ONE_AT_A_TIME }
  else jobset

/-- The call `state->jobsets.try_emplace(name, Jobset{name})` followed by the
assignments to the entry it returns. -/
def upsert (row : Row) (name : JobsetName) : List Jobset → List Jobset
  | [] => [applyRow row (Jobset.fresh name)]
  | j :: js =>
    if j.name = name then applyRow row j :: js
    else if nameLt name j.name then applyRow row (Jobset.fresh name) :: j :: js
    else j :: upsert row name js

/-- The loop over the result rows in `readJobsets`: the registry and the set
`seen` after the rows. -/
def readRows (evalOne : Option JobsetName) :
    List Row → List Jobset × List JobsetName → List Jobset × List JobsetName
  | [], acc => acc
  | row :: rest, (jobsets, seen) =>
    let name : JobsetName := (row.project, row.name)
    if evalOne.isSome && decide (some name ≠ evalOne) then
      readRows evalOne rest (jobsets, seen)
    else
      readRows evalOne rest (upsert row name jobsets, name :: seen)

/-- The method `Evaluator::readJobsets` on the query result `res`;
`Except.error 1` is `std::_Exit(1)`. -/
def readJobsets (cfg : Config) (res : List Row) (state : State) : Except Nat State :=
  let scanned := readRows cfg.evalOne res (state.jobsets, [])
  if cfg.evalOne.isSome && scanned.2.isEmpty then
    Except.error 1
  else
    Except.ok { state with jobsets := scanned.1.filter (fun j => decide (j.name ∈ scanned.2)) }

/-! ## `startEval` and `startEvals` -/

/-- What a dispatch pass takes from outside the process: the clock, the store
and the pid that `startProcess` returns for the child of each jobset. -/
structure DispatchEnv where
  now : Int
  db : EvalStore
  startProcess : JobsetName → Int

/-- The assignment `jobset.pid = ...` through the map entry of `name`. -/
def setPid (name : JobsetName) (pid : Int) : List Jobset → List Jobset
  | [] => []
  | j :: js => if j.name = name then { j with pid := pid } :: js else j :: setPid name pid js

/-- The method `Evaluator::startEval` on the map entry of `name`; `none` is a
failed `assert(jobset.pid == -1)`. -/
def startEval (env : DispatchEnv) (state : State) (name : JobsetName) : Option State :=
  match state.jobsets.find? (fun j => decide (j.name = name)) with
  | none => none
  | some jobset =>
    if jobset.pid ≠ -1 then none
    else some
      { runningEvals := state.runningEvals + 1
        jobsets := setPid name (env.startProcess name) state.jobsets }

/-- The comparator given to `std::sort` in `startEvals`. -/
def before (a b : Jobset) : Bool :=
  if a.triggerTime ≠ b.triggerTime then decide (a.triggerTime < b.triggerTime)
  else if a.lastCheckedTime ≠ b.lastCheckedTime then decide (a.lastCheckedTime < b.lastCheckedTime)
  else nameLt a.name b.name

/-- The call `std::sort(sorted.begin(), sorted.end(), comparator)`, as an
insertion sort: an element goes in front of the first one that does not come
before it. -/
def stdSort (l : List Jobset) : List Jobset :=
  l.insertionSort (fun a b => before b a = false)

/-- The filter of `startEvals`: the entries pushed onto `sorted`. -/
def selected (cfg : Config) (env : DispatchEnv) (state : State) : List Jobset :=
  state.jobsets.filter (fun j =>
    cfg.evalOne.isSome || (j.evaluation_style.isSome && shouldEvaluate env.db env.now j))

/-- The last loop of `startEvals`; the second component lists the jobsets for
which `startEval` forked a child, in the order of the calls. -/
def startLoop (cfg : Config) (env : DispatchEnv) :
    List Jobset → State → Option (State × List JobsetName)
  | [], state => some (state, [])
  | i :: rest, state =>
    if state.runningEvals ≥ cfg.maxEvals then some (state, [])
    else
      match startEval env state i.name with
      | none => none
      | some state1 =>
        match startLoop cfg env rest state1 with
        | none => none
        | some (state2, started) => some (state2, i.name :: started)

/-- The method `Evaluator::startEvals`. -/
def startEvals (cfg : Config) (env : DispatchEnv) (state : State) :
    Option (State × List JobsetName) :=
  startLoop cfg env (stdSort (selected cfg env state)) state

/-! ## `reaper` -/

/-- A row of the table `Jobsets` (the columns this program reads or writes). -/
structure JobsetsRow where
  project : String
  name : String
  lastCheckedTime : Option Int
  triggerTime : Option Int
  checkInterval : Int
  enabled : Int
  startTime : Option Int
  errorMsg : Option String
  errorTime : Option Int
  fetchErrorMsg : Option String
deriving DecidableEq, Repr

/-- The macro `WIFEXITED` of `<sys/wait.h>` (Linux): `(status & 0x7f) == 0`. -/
def WIFEXITED (status : Nat) : Bool := status % 128 == 0

/-- The macro `WEXITSTATUS` of `<sys/wait.h>` (Linux): `(status & 0xff00) >> 8`. -/
def WEXITSTATUS (status : Nat) : Nat := (status / 256) % 256

/-- The `where project = $1 and name = $2` of the reaper's updates. -/
def rowIs (name : JobsetName) (r : JobsetsRow) : Bool :=
  decide (r.project = name.1) && decide (r.name = name.2)

/-- The SQL condition `startTime is not null and triggerTime <= startTime`. -/
def triggerNotAfterStart (r : JobsetsRow) : Bool :=
  match r.startTime, r.triggerTime with
  | some s, some t => decide (t ≤ s)
  | _, _ => false

/-- The three updates of the reaper's transaction, as committed.
`statusToString` is the library function of that name. -/
def reaperTxn (statusToString : Nat → String) (name : JobsetName) (status : Nat) (now : Int)
    (tbl : List JobsetsRow) : List JobsetsRow :=
  let tbl := tbl.map (fun r =>
    if rowIs name r && triggerNotAfterStart r then { r with triggerTime := none } else r)
  let tbl := tbl.map (fun r => if rowIs name r then { r with startTime := none } else r)
  if !WIFEXITED status || decide (WEXITSTATUS status > 1) then
    tbl.map (fun r =>
      if rowIs name r then
        { r with
          errorMsg := some ("evaluation " ++ statusToString status)
          lastCheckedTime := some now
          errorTime := some now
          fetchErrorMsg := none }
      else r)
  else tbl

/-- The scan `for (auto & i : state->jobsets)` of the reaper: the first entry
whose pid is `pid` is updated, then the loop breaks. -/
def reapJobsets (pid now : Int) : List Jobset → List Jobset
  | [] => []
  | j :: js =>
    if j.pid = pid then
      { j with triggerTime := notTriggered, lastCheckedTime := now, pid := -1 } :: js
    else j :: reapJobsets pid now js

/-- What the second locked block of an iteration of `reaper` leaves behind. -/
structure Reaped where
  state : State
  table : List JobsetsRow
  exit : Option Nat
deriving DecidableEq, Repr

/-- The second locked block of `Evaluator::reaper`, entered after `waitpid`
returned `pid` (not `-1`) and `status`; `now` is `time(0)`, `commits` tells
whether the transaction went through (an exception leaves the table as it
was), `none` is a failed `assert(state->runningEvals)`. -/
def reaper (cfg : Config) (statusToString : Nat → String) (pid : Int) (status : Nat) (now : Int)
    (commits : Bool) (state : State) (tbl : List JobsetsRow) : Option Reaped :=
  if state.runningEvals = 0 then none
  else
    let found := state.jobsets.find? (fun j => decide (j.pid = pid))
    some
      { state :=
          { runningEvals := state.runningEvals - 1
            jobsets := reapJobsets pid now state.jobsets }
        table :=
          match found with
          | some jobset => if commits then reaperTxn statusToString jobset.name status now tbl else tbl
          | none => tbl
        exit := if found.isSome && cfg.evalOne.isSome then some 0 else none }

/-! ## The threads as a transition system on `State` -/

/-- The keys of the registry are pairwise distinct (it is a `std::map`). -/
def keysDistinct (jobsets : List Jobset) : Prop :=
  (jobsets.map Jobset.name).Nodup

/-- The keys of the registry are in strictly ascending order (the iteration
order of a `std::map`). -/
def keysAscending (jobsets : List Jobset) : Prop :=
  jobsets.Pairwise (fun a b => nameLt a.name b.name = true)

/-- The number of jobsets whose pid is present. -/
def runningCount (jobsets : List Jobset) : Nat :=
  (jobsets.filter (fun j => decide (j.pid ≠ -1))).length

/-- The value of `state_` when the threads start. -/
def State.init : State := { runningEvals := 0, jobsets := [] }

/-- One critical section of one of the three threads: a sync of the monitor
that returns, a dispatch pass of the main loop that completes (`startProcess`
hands out real pids), or the second block of the reaper after `waitpid`
returned a real pid. -/
inductive Step (cfg : Config) : State → State → Prop where
  | sync (res : List Row) {s s1 : State} :
      readJobsets cfg res s = Except.ok s1 → Step cfg s s1
  | dispatch (env : DispatchEnv) (started : List JobsetName) {s s1 : State} :
      (∀ n, env.startProcess n ≠ -1) →
      startEvals cfg env s = some (s1, started) → Step cfg s s1
  | reap (statusToString : Nat → String) (pid : Int) (status : Nat) (now : Int)
      (commits : Bool) (tbl : List JobsetsRow) {s : State} {r : Reaped} :
      pid ≠ -1 →
      reaper cfg statusToString pid status now commits s tbl = some r → Step cfg s r.state

/-- The states of a run of the program. -/
inductive Reachable (cfg : Config) : State → Prop where
  | init : Reachable cfg State.init
  | step {s s1 : State} : Reachable cfg s → Step cfg s s1 → Reachable cfg s1

/-- The states of a run in which the registry keeps book of every child: no
sync removes a jobset whose pid is present, and every pid that `waitpid`
returns is recorded in a jobset. -/
inductive ReachableTracked (cfg : Config) : State → Prop where
  | init : ReachableTracked cfg State.init
  | sync (res : List Row) {s s1 : State} :
      ReachableTracked cfg s →
      readJobsets cfg res s = Except.ok s1 →
      (∀ j ∈ s.jobsets, j.pid ≠ -1 → ∃ k ∈ s1.jobsets, k.name = j.name) →
      ReachableTracked cfg s1
  | dispatch (env : DispatchEnv) (started : List JobsetName) {s s1 : State} :
      ReachableTracked cfg s →
      (∀ n, env.startProcess n ≠ -1) →
      startEvals cfg env s = some (s1, started) → ReachableTracked cfg s1
  | reap (statusToString : Nat → String) (pid : Int) (status : Nat) (now : Int)
      (commits : Bool) (tbl : List JobsetsRow) {s : State} {r : Reaped} :
      ReachableTracked cfg s →
      pid ≠ -1 →
      (∃ j ∈ s.jobsets, j.pid = pid) →
      reaper cfg statusToString pid status now commits s tbl = some r →
      ReachableTracked cfg r.state

/-- The ascending order of (`triggerTime`, `lastCheckedTime`, `JobsetName`). -/
def ascending (a b : Jobset) : Prop :=
  a.triggerTime < b.triggerTime ∨
    (a.triggerTime = b.triggerTime ∧
      (a.lastCheckedTime < b.lastCheckedTime ∨
        (a.lastCheckedTime = b.lastCheckedTime ∧ nameLt a.name b.name = true)))

/-- The entry of a jobset after `startEval` gave it a child. -/
def withChild (env : DispatchEnv) (started : List JobsetName) (j : Jobset) : Jobset :=
  if j.name ∈ started then { j with pid := env.startProcess j.name } else j

/-- The number `min(k, maxEvals - runningEvals)` of a dispatch pass, `k` the
number of entries that the filter of `startEvals` selects. -/
def launchCount (cfg : Config) (env : DispatchEnv) (st : State) : Nat :=
  min (selected cfg env st).length (cfg.maxEvals - st.runningEvals)

/-! ## Concrete configurations, rows and states used as test points -/

/-- The scheduler running forever with the default cap. -/
def normalCfg : Config := { evalOne := none, maxEvals := 4 }

/-- The program called as `hydra-evaluator nixos trunk`. -/
def oneCfg : Config := { evalOne := some ("nixos", "trunk"), maxEvals := 4 }

/-- A result row for the jobset `nixos:trunk`, never checked, not triggered. -/
def trunkRow : Row :=
  { project := "nixos", name := "trunk", lastCheckedTime := none, triggerTime := none,
    checkInterval := 300, jobset_enabled := some 1 }

/-- The entry that a sync makes of `trunkRow`. -/
def trunkIdle : Jobset :=
  { name := ("nixos", "trunk"), evaluation_style := some EvaluationStyle.SCHEDULE,
    lastCheckedTime := 0, triggerTime := notTriggered, checkInterval := 300, pid := -1 }

/-- The entry `trunkIdle` with the child 4711 running. -/
def trunkRunning : Jobset := { trunkIdle with pid := 4711 }

/-- A dispatch pass at time 1000 over an empty store; every child gets pid 4711. -/
def envAt1000 : DispatchEnv :=
  { now := 1000, db := { jobsetEvals := [], jobsetEvalMembers := [], builds := [] },
    startProcess := fun _ => 4711 }

/-- A due ONE_AT_A_TIME jobset. -/
def gateJobset : Jobset :=
  { name := ("nixos", "trunk"), evaluation_style := some EvaluationStyle.ONE_AT_A_TIME,
    lastCheckedTime := 900, triggerTime := notTriggered, checkInterval := 60, pid := -1 }

/-- A store in which the latest evaluation (id 7) of `nixos:trunk` has the
unfinished build 42. -/
def gateDb : EvalStore :=
  { jobsetEvals := [⟨3, "nixos", "trunk"⟩, ⟨7, "nixos", "trunk"⟩, ⟨9, "nixos", "other"⟩]
    jobsetEvalMembers := [⟨3, 41⟩, ⟨7, 42⟩, ⟨7, 43⟩]
    builds := [⟨41, 1⟩, ⟨42, 0⟩, ⟨43, 1⟩] }

/-- The row of `nixos:trunk` in the table `Jobsets` while its evaluation,
started at time 1000, runs. -/
def trunkStored : JobsetsRow :=
  { project := "nixos", name := "trunk", lastCheckedTime := none, triggerTime := none,
    checkInterval := 300, enabled := 1, startTime := some 1000, errorMsg := none,
    errorTime := none, fetchErrorMsg := some "old fetch error" }

/-- The scheduler with a cap of two concurrent evaluations. -/
def capCfg : Config := { evalOne := none, maxEvals := 2 }

/-- Jobset A of the scenario "concurrency cap": triggered at 10. -/
def capA : Jobset :=
  { name := ("p", "a"), evaluation_style := some EvaluationStyle.SCHEDULE,
    lastCheckedTime := 0, triggerTime := 10, checkInterval := 60, pid := -1 }

/-- Jobset B of the scenario "concurrency cap": triggered at 20. -/
def capB : Jobset :=
  { name := ("p", "b"), evaluation_style := some EvaluationStyle.SCHEDULE,
    lastCheckedTime := 0, triggerTime := 20, checkInterval := 60, pid := -1 }

/-- Jobset C of the scenario "concurrency cap": not triggered, due since
`lastCheckedTime = now - 1000`. -/
def capC : Jobset :=
  { name := ("p", "c"), evaluation_style := some EvaluationStyle.SCHEDULE,
    lastCheckedTime := 1000, triggerTime := notTriggered, checkInterval := 60, pid := -1 }

/-- The registry of the scenario, in key order. -/
def capState : State := { runningEvals := 0, jobsets := [capA, capB, capC] }

/-- A dispatch pass at time 2000; the children get the pids 101, 102, 103. -/
def capEnv : DispatchEnv :=
  { now := 2000, db := { jobsetEvals := [], jobsetEvalMembers := [], builds := [] },
    startProcess := fun n => if n.2 = "a" then 101 else if n.2 = "b" then 102 else 103 }

/-- A jobset with automatic scheduling switched off and no trigger. -/
def manualJobset : Jobset :=
  { name := ("nixos", "trunk"), evaluation_style := some EvaluationStyle.SCHEDULE,
    lastCheckedTime := 0, triggerTime := notTriggered, checkInterval := 0, pid := -1 }

/-- A result row for `nixos:trunk` whose `enabled` is none of 1, 2, 3. -/
def strayRow : Row := { trunkRow with jobset_enabled := some 4 }

/-! ## The store write of `startEval` -/

/-- The statement `update Jobsets set startTime = $1 where project = $2 and
name = $3` of `startEval`, as committed; `now` is `time(0)`. -/
def startEvalTxn (now : Int) (name : JobsetName) (tbl : List JobsetsRow) : List JobsetsRow :=
  tbl.map (fun r => if rowIs name r then { r with startTime := some now } else r)

/-! ## The constructor -/

/-- Modelled from the spec: `Config::getIntOption(key, def)` is declared in
`hydra-config.hh`, which is not among the sources; it yields the integer value
of the option, and `def` when the option is absent ("integer, ..., default 4").
`option` is the value of the key in the configuration, if any. -/
def getIntOption (option : Option Int) (dflt : Int) : Int := option.getD dflt

/-- The conversion `(size_t) v` of an integer (64 bits, two's complement). -/
def toSizeT (v : Int) : Nat := (v % 18446744073709551616).toNat

/-- The initialiser of `maxEvals` in the constructor:
`std::max((size_t) 1, (size_t) config->getIntOption("max_concurrent_evals", 4))`. -/
def initMaxEvals (max_concurrent_evals : Option Int) : Nat :=
  max (toSizeT 1) (toSizeT (getIntOption max_concurrent_evals 4))

/-! ## The main loop -/

/-- The constant `std::chrono::seconds::max()` (a 64-bit count). -/
def secondsMax : Int := 9223372036854775807

/-- The computation of `sleepTime` at the head of an iteration of `loop`, in
seconds; `now` is `time(0)`. The value `secondsMax` makes the loop wait
without a timeout. -/
def sleepTime (cfg : Config) (now : Int) (state : State) : Int :=
  if state.runningEvals < cfg.maxEvals then
    state.jobsets.foldl (fun sleepTime i =>
      if i.pid = -1 ∧ i.checkInterval > 0 then
        min sleepTime (max 1 (i.lastCheckedTime - now + i.checkInterval))
      else sleepTime) secondsMax
  else secondsMax

/-! ## The reaper thread between its two critical sections -/

/-- Where the reaper thread is: in its first block, waiting on `childStarted`
until `runningEvals` is not zero, or past it, in `waitpid` or about to take the
lock of its second block. -/
inductive ReaperAt where
  | firstBlock
  | childWait
deriving DecidableEq, Repr

/-- The shared `State` together with the position of the reaper thread. -/
structure Threads where
  state : State
  reaperAt : ReaperAt

/-- One step of one thread, the critical sections being atomic: a sync, a
dispatch pass, the reaper leaving its first block (which it does only when
`runningEvals` is not zero), the reaper going back to its first block after
`waitpid` failed with `EINTR`, or the reaper running its second block. -/
inductive ThreadStep (cfg : Config) : Threads → Threads → Prop where
  | sync (res : List Row) {t : Threads} {s1 : State} :
      readJobsets cfg res t.state = Except.ok s1 →
      ThreadStep cfg t { state := s1, reaperAt := t.reaperAt }
  | dispatch (env : DispatchEnv) (started : List JobsetName) {t : Threads} {s1 : State} :
      startEvals cfg env t.state = some (s1, started) →
      ThreadStep cfg t { state := s1, reaperAt := t.reaperAt }
  | leaveFirstBlock {t : Threads} :
      t.reaperAt = ReaperAt.firstBlock → t.state.runningEvals ≠ 0 →
      ThreadStep cfg t { state := t.state, reaperAt := ReaperAt.childWait }
  | interrupted {t : Threads} :
      t.reaperAt = ReaperAt.childWait →
      ThreadStep cfg t { state := t.state, reaperAt := ReaperAt.firstBlock }
  | reap (statusToString : Nat → String) (pid : Int) (status : Nat) (now : Int)
      (commits : Bool) (tbl : List JobsetsRow) {t : Threads} {r : Reaped} :
      t.reaperAt = ReaperAt.childWait →
      reaper cfg statusToString pid status now commits t.state tbl = some r →
      ThreadStep cfg t { state := r.state, reaperAt := ReaperAt.firstBlock }

/-- The states of the threads in a run of the program. -/
inductive ThreadsReachable (cfg : Config) : Threads → Prop where
  | init : ThreadsReachable cfg { state := State.init, reaperAt := ReaperAt.firstBlock }
  | step {t t1 : Threads} : ThreadsReachable cfg t → ThreadStep cfg t t1 → ThreadsReachable cfg t1

/-! ## The registry as a map, and the rows of a snapshot key by key -/

/-- The entry of the registry under the key `n`, if there is one
(`jobsets.find(n)`). -/
def lookup (jobsets : List Jobset) (n : JobsetName) : Option Jobset :=
  jobsets.find? (fun j => decide (j.name = n))

/-- The rows of the snapshot that the loop of `readJobsets` applies to the
entry of key `m`, in the order of the snapshot: those not skipped by the
`evalOne` test whose (project, name) is `m`. -/
def rowsFor (evalOne : Option JobsetName) (m : JobsetName) (rows : List Row) : List Row :=
  rows.filter (fun row =>
    !(evalOne.isSome && decide (some (row.project, row.name) ≠ evalOne)) &&
      decide ((row.project, row.name) = m))

/-- The assignments of several rows, one after the other, to one entry. -/
def applyRows (rs : List Row) (j : Jobset) : Jobset :=
  rs.foldl (fun acc r => applyRow r acc) j

/-- The keys for which the erase loop of `readJobsets` prints "forgetting
jobset": the entries, after the rows, whose key is not in `seen`. -/
def forgotten (cfg : Config) (res : List Row) (state : State) : List JobsetName :=
  let scanned := readRows cfg.evalOne res (state.jobsets, [])
  (scanned.1.filter (fun j => !decide (j.name ∈ scanned.2))).map Jobset.name

theorem maxId_eq_none {l : List Int} : maxId l = none ↔ l = [] := by
  cases l with
  | nil => simp [maxId]
  | cons x xs =>
    simp only [maxId]
    cases maxId xs <;> simp

theorem maxId_eq_some {l : List Int} {m : Int} (h : maxId l = some m) :
    m ∈ l ∧ ∀ x ∈ l, x ≤ m := by
  induction l generalizing m with
  | nil => simp [maxId] at h
  | cons x xs ih =>
    simp only [maxId] at h
    cases hxs : maxId xs with
    | none =>
      rw [hxs] at h
      have hnil := maxId_eq_none.mp hxs
      subst hnil
      simp at h
      subst h
      simp
    | some m' =>
      rw [hxs] at h
      obtain ⟨hm, hle⟩ := ih hxs
      simp only [Option.some.injEq] at h
      by_cases hc : m' ≤ x
      · rw [if_pos hc] at h
        subst h
        refine ⟨List.mem_cons_self _ _, ?_⟩
        intro y hy
        rcases List.mem_cons.mp hy with rfl | hy
        · exact le_refl _
        · exact le_trans (hle y hy) hc
      · rw [if_neg hc] at h
        subst h
        refine ⟨List.mem_cons_of_mem _ hm, ?_⟩
        intro y hy
        rcases List.mem_cons.mp hy with rfl | hy
        · omega
        · exact hle y hy

theorem latestEval_eq_none {db : EvalStore} {name : JobsetName} :
    latestEval db name = none ↔
      ∀ e ∈ db.jobsetEvals, ¬ (e.project = name.1 ∧ e.jobset = name.2) := by
  unfold latestEval
  rw [maxId_eq_none]
  simp [List.filter_eq_nil_iff]

theorem latestEval_eq_some {db : EvalStore} {name : JobsetName} {i : Int}
    (h : latestEval db name = some i) :
    (∃ e ∈ db.jobsetEvals, (e.project = name.1 ∧ e.jobset = name.2) ∧ e.id = i) ∧
      ∀ e ∈ db.jobsetEvals, (e.project = name.1 ∧ e.jobset = name.2) → e.id ≤ i := by
  unfold latestEval at h
  obtain ⟨hm, hle⟩ := maxId_eq_some h
  simp only [List.mem_map, List.mem_filter, Bool.and_eq_true, decide_eq_true_eq] at hm hle
  constructor
  · obtain ⟨e, ⟨he, hp⟩, hid⟩ := hm
    exact ⟨e, he, hp, hid⟩
  · intro e he hp
    exact hle e.id ⟨e, ⟨he, hp⟩, rfl⟩

theorem unfinishedBuilds_isEmpty {db : EvalStore} {i : Int} :
    (unfinishedBuilds db i).isEmpty = true ↔
      ¬ ∃ b ∈ db.builds, b.finished = 0 ∧
          ∃ m ∈ db.jobsetEvalMembers, m.build = b.id ∧ m.eval = i := by
  unfold unfinishedBuilds
  simp [List.isEmpty_iff, List.filter_eq_nil_iff]

/-- The ONE_AT_A_TIME branch of `shouldEvaluate`, in terms of the tables: it
lets the jobset through iff the jobset has no evaluation, or no build of its
evaluation of highest id is unfinished. -/
theorem oneAtATime_gate (db : EvalStore) (name : JobsetName) :
    (match latestEval db name with
      | none => true
      | some evaluation_id =>
        if (unfinishedBuilds db evaluation_id).isEmpty then true else false) = true ↔
      ((∀ e ∈ db.jobsetEvals, ¬ (e.project = name.1 ∧ e.jobset = name.2)) ∨
        ∃ e ∈ db.jobsetEvals, (e.project = name.1 ∧ e.jobset = name.2) ∧
          (∀ e' ∈ db.jobsetEvals, (e'.project = name.1 ∧ e'.jobset = name.2) → e'.id ≤ e.id) ∧
          ¬ ∃ b ∈ db.builds, b.finished = 0 ∧
              ∃ m ∈ db.jobsetEvalMembers, m.build = b.id ∧ m.eval = e.id) := by
  cases h : latestEval db name with
  | none =>
    simp only [true_iff]
    exact Or.inl (latestEval_eq_none.mp h)
  | some i =>
    obtain ⟨⟨e, he, hp, hid⟩, hmax⟩ := latestEval_eq_some h
    have hne : ¬ ∀ e ∈ db.jobsetEvals, ¬ (e.project = name.1 ∧ e.jobset = name.2) :=
      fun hall => hall e he hp
    simp only [Bool.if_true_left, Bool.or_false, Bool.not_not]
    rw [decide_eq_true_eq, unfinishedBuilds_isEmpty]
    constructor
    · intro hu
      refine Or.inr ⟨e, he, hp, ?_, ?_⟩
      · intro e' he' hp'
        rw [hid]
        exact hmax e' he' hp'
      · rw [hid]
        exact hu
    · rintro (hall | ⟨e2, he2, hp2, hmax2, hu⟩)
      · exact absurd hall hne
      · have h1 : e2.id ≤ i := hmax e2 he2 hp2
        have h2 : e.id ≤ e2.id := hmax2 e he hp
        have : e2.id = i := by omega
        rw [← this]
        exact hu

theorem shouldEvaluate_of_pid {db : EvalStore} {now : Int} {j : Jobset} (hp : j.pid ≠ -1) :
    shouldEvaluate db now j = false := by
  simp [shouldEvaluate, hp]

theorem shouldEvaluate_of_manual {db : EvalStore} {now : Int} {j : Jobset}
    (htt : j.triggerTime = notTriggered) (hci : j.checkInterval ≤ 0) :
    shouldEvaluate db now j = false := by
  by_cases hp : j.pid = -1
  · simp [shouldEvaluate, hp, htt, hci]
  · exact shouldEvaluate_of_pid hp

/-! ## C1: the decision table of `shouldEvaluate` -/

/-- C1. `shouldEvaluate` follows the decision table for every jobset, every
time `now` and every content of the store: it is false when a pid is present;
otherwise true when `triggerTime` is not the MAX sentinel; otherwise false when
`checkInterval ≤ 0`; otherwise false when `lastCheckedTime + checkInterval >
now`; otherwise (due) true for the styles SCHEDULE and ONESHOT, and for
ONE_AT_A_TIME true iff the jobset has no evaluation in `JobsetEvals` or no
build that is a member of its evaluation of highest id has `finished = 0`. -/
theorem shouldEvaluate_decision_table (db : EvalStore) (now : Int) (j : Jobset) :
    (j.pid ≠ -1 → shouldEvaluate db now j = false) ∧
    (j.pid = -1 → j.triggerTime ≠ notTriggered → shouldEvaluate db now j = true) ∧
    (j.pid = -1 → j.triggerTime = notTriggered → j.checkInterval ≤ 0 →
      shouldEvaluate db now j = false) ∧
    (j.pid = -1 → j.triggerTime = notTriggered → ¬ j.checkInterval ≤ 0 →
      j.lastCheckedTime + j.checkInterval > now → shouldEvaluate db now j = false) ∧
    (j.pid = -1 → j.triggerTime = notTriggered → ¬ j.checkInterval ≤ 0 →
      ¬ j.lastCheckedTime + j.checkInterval > now →
      (j.evaluation_style = some EvaluationStyle.SCHEDULE ∨
        j.evaluation_style = some EvaluationStyle.ONESHOT) →
      shouldEvaluate db now j = true) ∧
    (j.pid = -1 → j.triggerTime = notTriggered → ¬ j.checkInterval ≤ 0 →
      ¬ j.lastCheckedTime + j.checkInterval > now →
      j.evaluation_style = some EvaluationStyle.ONE_AT_A_TIME →
      (shouldEvaluate db now j = true ↔
        ((∀ e ∈ db.jobsetEvals, ¬ (e.project = j.name.1 ∧ e.jobset = j.name.2)) ∨
          ∃ e ∈ db.jobsetEvals, (e.project = j.name.1 ∧ e.jobset = j.name.2) ∧
            (∀ e' ∈ db.jobsetEvals,
              (e'.project = j.name.1 ∧ e'.jobset = j.name.2) → e'.id ≤ e.id) ∧
            ¬ ∃ b ∈ db.builds, b.finished = 0 ∧
                ∃ m ∈ db.jobsetEvalMembers, m.build = b.id ∧ m.eval = e.id))) := by
  refine ⟨?_, ?_, ?_, ?_, ?_, ?_⟩
  · intro hp
    simp [shouldEvaluate, hp]
  · intro hp ht
    simp [shouldEvaluate, hp, ht]
  · intro hp ht hc
    simp [shouldEvaluate, hp, ht, hc]
  · intro hp ht hc hd
    have hd' : ¬ j.lastCheckedTime + j.checkInterval ≤ now := by omega
    simp [shouldEvaluate, hp, ht, hc, hd']
  · intro hp ht hc hd hs
    have hd' : j.lastCheckedTime + j.checkInterval ≤ now := by omega
    rcases hs with hs | hs <;> simp [shouldEvaluate, hp, ht, hc, hd', hs]
  · intro hp ht hc hd hs
    have hd' : j.lastCheckedTime + j.checkInterval ≤ now := by omega
    rw [← oneAtATime_gate db j.name]
    unfold shouldEvaluate
    rw [if_neg (by simpa using hp), if_neg (by simpa using ht), if_neg hc, if_pos hd', if_pos hs]

/-- Witness of C1 (scenario "ONE_AT_A_TIME gate"): a due ONE_AT_A_TIME jobset
whose latest evaluation has an unfinished build is not eligible. -/
theorem shouldEvaluate_decision_table_witness :
    shouldEvaluate gateDb 1000 gateJobset = false := by
  have h := (shouldEvaluate_decision_table gateDb 1000 gateJobset).2.2.2.2.2
    rfl rfl (by decide) (by decide) rfl
  cases hs : shouldEvaluate gateDb 1000 gateJobset with
  | false => rfl
  | true =>
    exfalso
    revert h
    rw [hs]
    decide

/-! ## The order on keys -/

theorem char_eq_of_toNat_eq {a b : Char} (h : a.toNat = b.toNat) : a = b := by
  apply Char.ext
  apply UInt32.ext
  exact h

theorem ltChars_irrefl (a : List Char) : ltChars a a = false := by
  induction a with
  | nil => rfl
  | cons x xs ih => simp [ltChars, ih]

theorem ltChars_trans {a b c : List Char} (hab : ltChars a b = true) (hbc : ltChars b c = true) :
    ltChars a c = true := by
  induction a generalizing b c with
  | nil =>
    cases c with
    | nil => cases b <;> simp [ltChars] at hbc
    | cons z zs => rfl
  | cons x xs ih =>
    cases b with
    | nil => simp [ltChars] at hab
    | cons y ys =>
      cases c with
      | nil => simp [ltChars] at hbc
      | cons z zs =>
        simp only [ltChars] at hab hbc ⊢
        split_ifs at hab hbc ⊢ <;> first | rfl | omega | (exact ih hab hbc)

theorem ltChars_total {a b : List Char} (hab : ltChars a b = false) (hba : ltChars b a = false) :
    a = b := by
  induction a generalizing b with
  | nil =>
    cases b with
    | nil => rfl
    | cons y ys => simp [ltChars] at hab
  | cons x xs ih =>
    cases b with
    | nil => simp [ltChars] at hba
    | cons y ys =>
      simp only [ltChars] at hab hba
      by_cases h1 : x.toNat < y.toNat
      · simp [h1] at hab
      · by_cases h2 : y.toNat < x.toNat
        · simp [h2] at hba
        · simp only [h1, h2, if_false] at hab hba
          have hxy : x = y := char_eq_of_toNat_eq (by omega)
          rw [hxy, ih hab hba]

theorem strLt_irrefl (a : String) : strLt a a = false := ltChars_irrefl _

theorem strLt_trans {a b c : String} (hab : strLt a b = true) (hbc : strLt b c = true) :
    strLt a c = true := ltChars_trans hab hbc

theorem strLt_total {a b : String} (hab : strLt a b = false) (hba : strLt b a = false) :
    a = b := by
  have := ltChars_total hab hba
  cases a; cases b; simp_all

theorem strLt_asymm {a b : String} (hab : strLt a b = true) : strLt b a = false := by
  cases h : strLt b a with
  | false => rfl
  | true =>
    have := strLt_trans hab h
    rw [strLt_irrefl] at this
    exact absurd this (by simp)

theorem nameLt_irrefl (a : JobsetName) : nameLt a a = false := by
  simp [nameLt, strLt_irrefl]

theorem nameLt_trans {a b c : JobsetName} (hab : nameLt a b = true) (hbc : nameLt b c = true) :
    nameLt a c = true := by
  simp only [nameLt, Bool.or_eq_true, Bool.and_eq_true, Bool.not_eq_true'] at hab hbc ⊢
  rcases hab with h1 | ⟨h1, h2⟩
  · rcases hbc with h3 | ⟨h3, _⟩
    · exact Or.inl (strLt_trans h1 h3)
    · left
      cases h4 : strLt b.1 c.1 with
      | true => exact strLt_trans h1 h4
      | false =>
        have : b.1 = c.1 := strLt_total h4 h3
        rw [← this]; exact h1
  · cases h0 : strLt a.1 b.1 with
    | true =>
      rcases hbc with h3 | ⟨h3, _⟩
      · exact Or.inl (strLt_trans h0 h3)
      · left
        cases h4 : strLt b.1 c.1 with
        | true => exact strLt_trans h0 h4
        | false =>
          have : b.1 = c.1 := strLt_total h4 h3
          rw [← this]; exact h0
    | false =>
      have hab1 : a.1 = b.1 := strLt_total h0 h1
      rcases hbc with h3 | ⟨h3, h4⟩
      · left; rw [hab1]; exact h3
      · right
        rw [hab1]
        exact ⟨h3, strLt_trans h2 h4⟩

theorem nameLt_total {a b : JobsetName} (hab : nameLt a b = false) (hba : nameLt b a = false) :
    a = b := by
  simp only [nameLt, Bool.or_eq_false_iff, Bool.and_eq_false_iff, Bool.not_eq_false'] at hab hba
  obtain ⟨h1, h2⟩ := hab
  obtain ⟨h3, h4⟩ := hba
  have e1 : a.1 = b.1 := strLt_total h1 h3
  have h2' : strLt a.2 b.2 = false := by
    rcases h2 with h | h
    · rw [h3] at h; exact absurd h (by simp)
    · exact h
  have h4' : strLt b.2 a.2 = false := by
    rcases h4 with h | h
    · rw [h1] at h; exact absurd h (by simp)
    · exact h
  have e2 : a.2 = b.2 := strLt_total h2' h4'
  exact Prod.ext e1 e2

theorem nameLt_asymm {a b : JobsetName} (hab : nameLt a b = true) : nameLt b a = false := by
  cases h : nameLt b a with
  | false => rfl
  | true =>
    have := nameLt_trans hab h
    rw [nameLt_irrefl] at this
    exact absurd this (by simp)

/-! ## Lemmas on the registry operations -/

theorem applyRow_pid (row : Row) (j : Jobset) : (applyRow row j).pid = j.pid := by
  unfold applyRow
  simp only
  split_ifs <;> rfl

theorem applyRow_name (row : Row) (j : Jobset) : (applyRow row j).name = j.name := by
  unfold applyRow
  simp only
  split_ifs <;> rfl

theorem runningCount_cons (j : Jobset) (l : List Jobset) :
    runningCount (j :: l) = (if j.pid ≠ -1 then 1 else 0) + runningCount l := by
  unfold runningCount
  by_cases h : j.pid = -1
  · simp [List.filter_cons, h]
  · simp [List.filter_cons, h, Nat.add_comm]

theorem runningCount_upsert (row : Row) (name : JobsetName) (l : List Jobset) :
    runningCount (upsert row name l) = runningCount l := by
  induction l with
  | nil =>
    simp [upsert, runningCount_cons, applyRow_pid, Jobset.fresh, runningCount]
  | cons j js ih =>
    unfold upsert
    split_ifs with h1 h2
    · simp [runningCount_cons, applyRow_pid]
    · simp [runningCount_cons, applyRow_pid, Jobset.fresh]
    · simp [runningCount_cons, ih]

theorem mem_upsert {row : Row} {name : JobsetName} {l : List Jobset} {k : Jobset}
    (hk : k ∈ upsert row name l) : k ∈ l ∨ k.name = name := by
  induction l with
  | nil =>
    simp only [upsert, List.mem_singleton] at hk
    right
    rw [hk, applyRow_name]
    rfl
  | cons j js ih =>
    unfold upsert at hk
    split_ifs at hk with h1 h2
    · rcases List.mem_cons.mp hk with rfl | hk
      · right; rw [applyRow_name]; exact h1
      · left; exact List.mem_cons_of_mem _ hk
    · rcases List.mem_cons.mp hk with rfl | hk
      · right; rw [applyRow_name]; rfl
      · left; exact hk
    · rcases List.mem_cons.mp hk with rfl | hk
      · left; exact List.mem_cons_self _ _
      · rcases ih hk with h | h
        · left; exact List.mem_cons_of_mem _ h
        · right; exact h

theorem readRows_runningCount (evalOne : Option JobsetName) (rows : List Row)
    (l : List Jobset) (seen : List JobsetName) :
    runningCount (readRows evalOne rows (l, seen)).1 = runningCount l := by
  induction rows generalizing l seen with
  | nil => rfl
  | cons row rest ih =>
    simp only [readRows]
    split_ifs
    · exact ih l seen
    · rw [ih, runningCount_upsert]

theorem readRows_seen_mono (evalOne : Option JobsetName) (rows : List Row)
    (l : List Jobset) (seen : List JobsetName) {n : JobsetName} (hn : n ∈ seen) :
    n ∈ (readRows evalOne rows (l, seen)).2 := by
  induction rows generalizing l seen with
  | nil => exact hn
  | cons row rest ih =>
    simp only [readRows]
    split_ifs
    · exact ih l seen hn
    · exact ih _ _ (List.mem_cons_of_mem _ hn)

theorem mem_readRows (evalOne : Option JobsetName) (rows : List Row)
    (l : List Jobset) (seen : List JobsetName) {k : Jobset}
    (hk : k ∈ (readRows evalOne rows (l, seen)).1) :
    k ∈ l ∨ k.name ∈ (readRows evalOne rows (l, seen)).2 := by
  induction rows generalizing l seen with
  | nil => exact Or.inl hk
  | cons row rest ih =>
    simp only [readRows] at hk ⊢
    split_ifs at hk ⊢
    · exact ih l seen hk
    · rcases ih _ _ hk with h | h
      · rcases mem_upsert h with h | h
        · exact Or.inl h
        · right
          apply readRows_seen_mono
          rw [h]
          exact List.mem_cons_self _ _
      · exact Or.inr h

theorem readJobsets_ok {cfg : Config} {res : List Row} {s s1 : State}
    (h : readJobsets cfg res s = Except.ok s1) :
    s1.runningEvals = s.runningEvals ∧
      s1.jobsets = (readRows cfg.evalOne res (s.jobsets, [])).1.filter
        (fun j => decide (j.name ∈ (readRows cfg.evalOne res (s.jobsets, [])).2)) := by
  unfold readJobsets at h
  simp only at h
  split_ifs at h
  simp only [Except.ok.injEq] at h
  subst h
  exact ⟨rfl, rfl⟩

theorem setPid_names (m : JobsetName) (p : Int) (l : List Jobset) :
    (setPid m p l).map Jobset.name = l.map Jobset.name := by
  induction l with
  | nil => rfl
  | cons j js ih =>
    unfold setPid
    split_ifs
    · simp
    · simp [ih]

theorem runningCount_setPid {m : JobsetName} {p : Int} {l : List Jobset} {k : Jobset}
    (hf : l.find? (fun j => decide (j.name = m)) = some k) (hk : k.pid = -1) (hp : p ≠ -1) :
    runningCount (setPid m p l) = runningCount l + 1 := by
  induction l with
  | nil => simp at hf
  | cons j js ih =>
    unfold setPid
    by_cases h : j.name = m
    · rw [if_pos h]
      simp only [List.find?_cons, h, decide_True, Option.some.injEq] at hf
      subst hf
      simp [runningCount_cons, hk, hp]
      omega
    · rw [if_neg h]
      simp only [List.find?_cons, h, decide_False] at hf
      rw [runningCount_cons, runningCount_cons, ih hf]
      omega

theorem runningCount_reapJobsets {pid : Int} (now : Int) {l : List Jobset} (hp : pid ≠ -1)
    (hj : ∃ j ∈ l, j.pid = pid) :
    runningCount (reapJobsets pid now l) + 1 = runningCount l := by
  induction l with
  | nil => simp at hj
  | cons j js ih =>
    unfold reapJobsets
    by_cases h : j.pid = pid
    · rw [if_pos h]
      have : j.pid ≠ -1 := by rw [h]; exact hp
      simp [runningCount_cons, this]
      omega
    · rw [if_neg h]
      have hj' : ∃ j ∈ js, j.pid = pid := by
        obtain ⟨k, hk, hkp⟩ := hj
        rcases List.mem_cons.mp hk with rfl | hk
        · exact absurd hkp h
        · exact ⟨k, hk, hkp⟩
      rw [runningCount_cons, runningCount_cons, ← ih hj']
      omega

/-! ## Lemmas on the dispatch loop -/

theorem startEval_some {env : DispatchEnv} {s s1 : State} {name : JobsetName}
    (h : startEval env s name = some s1) :
    ∃ k, s.jobsets.find? (fun j => decide (j.name = name)) = some k ∧ k.pid = -1 ∧
      s1 = { runningEvals := s.runningEvals + 1
             jobsets := setPid name (env.startProcess name) s.jobsets } := by
  unfold startEval at h
  cases hf : s.jobsets.find? (fun j => decide (j.name = name)) with
  | none => rw [hf] at h; simp at h
  | some k =>
    rw [hf] at h
    simp only at h
    split_ifs at h with hp
    simp only [Option.some.injEq] at h
    exact ⟨k, rfl, by simpa using hp, h.symm⟩

theorem startLoop_bound (cfg : Config) (env : DispatchEnv) (l : List Jobset) (s s1 : State)
    (started : List JobsetName) (hle : s.runningEvals ≤ cfg.maxEvals)
    (h : startLoop cfg env l s = some (s1, started)) : s1.runningEvals ≤ cfg.maxEvals := by
  induction l generalizing s started with
  | nil =>
    simp only [startLoop, Option.some.injEq, Prod.mk.injEq] at h
    rw [← h.1]; exact hle
  | cons i rest ih =>
    unfold startLoop at h
    split_ifs at h with hge
    · simp only [Option.some.injEq, Prod.mk.injEq] at h
      rw [← h.1]; exact hle
    · cases he : startEval env s i.name with
      | none => rw [he] at h; simp at h
      | some s2 =>
        rw [he] at h
        simp only at h
        cases hl : startLoop cfg env rest s2 with
        | none => rw [hl] at h; simp at h
        | some r =>
          obtain ⟨s3, st3⟩ := r
          rw [hl] at h
          simp only [Option.some.injEq, Prod.mk.injEq] at h
          obtain ⟨k, _, _, hs2⟩ := startEval_some he
          have h2 : s2.runningEvals ≤ cfg.maxEvals := by
            rw [hs2]; simp only; omega
          rw [h.1] at hl
          exact ih s2 st3 h2 hl

theorem startLoop_tracked (cfg : Config) (env : DispatchEnv) (hpid : ∀ n, env.startProcess n ≠ -1)
    (l : List Jobset) (s s1 : State) (started : List JobsetName)
    (heq : s.runningEvals = runningCount s.jobsets)
    (h : startLoop cfg env l s = some (s1, started)) :
    s1.runningEvals = runningCount s1.jobsets := by
  induction l generalizing s started with
  | nil =>
    simp only [startLoop, Option.some.injEq, Prod.mk.injEq] at h
    rw [← h.1]; exact heq
  | cons i rest ih =>
    unfold startLoop at h
    split_ifs at h with hge
    · simp only [Option.some.injEq, Prod.mk.injEq] at h
      rw [← h.1]; exact heq
    · cases he : startEval env s i.name with
      | none => rw [he] at h; simp at h
      | some s2 =>
        rw [he] at h
        simp only at h
        cases hl : startLoop cfg env rest s2 with
        | none => rw [hl] at h; simp at h
        | some r =>
          obtain ⟨s3, st3⟩ := r
          rw [hl] at h
          simp only [Option.some.injEq, Prod.mk.injEq] at h
          obtain ⟨k, hf, hk, hs2⟩ := startEval_some he
          have h2 : s2.runningEvals = runningCount s2.jobsets := by
            rw [hs2]; simp only
            rw [runningCount_setPid hf hk (hpid _), heq]
          rw [h.1] at hl
          exact ih s2 st3 h2 hl

theorem reaper_some {cfg : Config} {sts : Nat → String} {pid : Int} {status : Nat} {now : Int}
    {commits : Bool} {s : State} {tbl : List JobsetsRow} {r : Reaped}
    (h : reaper cfg sts pid status now commits s tbl = some r) :
    s.runningEvals ≠ 0 ∧
      r.state = { runningEvals := s.runningEvals - 1
                  jobsets := reapJobsets pid now s.jobsets } := by
  unfold reaper at h
  by_cases h0 : s.runningEvals = 0
  · rw [if_pos h0] at h
    exact absurd h (by simp)
  · rw [if_neg h0] at h
    simp only [Option.some.injEq] at h
    subst h
    exact ⟨h0, rfl⟩

/-! ## The registry keeps its keys in ascending order -/

theorem keysAscending_iff_names (l : List Jobset) :
    keysAscending l ↔ (l.map Jobset.name).Pairwise (fun a b => nameLt a b = true) := by
  unfold keysAscending
  rw [List.pairwise_map]

theorem keysDistinct_of_ascending {l : List Jobset} (h : keysAscending l) : keysDistinct l := by
  unfold keysDistinct List.Nodup
  rw [keysAscending_iff_names] at h
  refine h.imp ?_
  intro a b hab he
  rw [he, nameLt_irrefl] at hab
  exact absurd hab (by simp)

theorem keysAscending_upsert (row : Row) (name : JobsetName) {l : List Jobset}
    (h : keysAscending l) : keysAscending (upsert row name l) := by
  induction l with
  | nil => simp [upsert, keysAscending]
  | cons j js ih =>
    unfold keysAscending at h ih ⊢
    rw [List.pairwise_cons] at h
    obtain ⟨hhead, htail⟩ := h
    unfold upsert
    split_ifs with h1 h2
    · rw [List.pairwise_cons]
      refine ⟨?_, htail⟩
      intro x hx
      rw [applyRow_name]
      exact hhead x hx
    · rw [List.pairwise_cons, List.pairwise_cons]
      refine ⟨?_, hhead, htail⟩
      intro x hx
      rw [applyRow_name]
      rcases List.mem_cons.mp hx with rfl | hx
      · exact h2
      · exact nameLt_trans h2 (hhead x hx)
    · rw [List.pairwise_cons]
      refine ⟨?_, ih htail⟩
      intro x hx
      rcases mem_upsert hx with hx | hx
      · exact hhead x hx
      · rw [hx]
        cases hjn : nameLt j.name name with
        | true => rfl
        | false =>
          have h2' : nameLt name j.name = false := by simpa using h2
          exact absurd (nameLt_total hjn h2') h1

theorem keysAscending_readRows (evalOne : Option JobsetName) (rows : List Row)
    (l : List Jobset) (seen : List JobsetName) (h : keysAscending l) :
    keysAscending (readRows evalOne rows (l, seen)).1 := by
  induction rows generalizing l seen with
  | nil => exact h
  | cons row rest ih =>
    simp only [readRows]
    split_ifs
    · exact ih l seen h
    · exact ih _ _ (keysAscending_upsert row _ h)

theorem reapJobsets_names (pid now : Int) (l : List Jobset) :
    (reapJobsets pid now l).map Jobset.name = l.map Jobset.name := by
  induction l with
  | nil => rfl
  | cons j js ih =>
    unfold reapJobsets
    split_ifs
    · simp
    · simp [ih]

theorem keysAscending_startLoop (cfg : Config) (env : DispatchEnv) (l : List Jobset)
    (s s1 : State) (started : List JobsetName) (hs : keysAscending s.jobsets)
    (h : startLoop cfg env l s = some (s1, started)) : keysAscending s1.jobsets := by
  induction l generalizing s started with
  | nil =>
    simp only [startLoop, Option.some.injEq, Prod.mk.injEq] at h
    rw [← h.1]; exact hs
  | cons i rest ih =>
    unfold startLoop at h
    split_ifs at h with hge
    · simp only [Option.some.injEq, Prod.mk.injEq] at h
      rw [← h.1]; exact hs
    · cases he : startEval env s i.name with
      | none => rw [he] at h; simp at h
      | some s2 =>
        rw [he] at h
        simp only at h
        cases hl : startLoop cfg env rest s2 with
        | none => rw [hl] at h; simp at h
        | some r =>
          obtain ⟨s3, st3⟩ := r
          rw [hl] at h
          simp only [Option.some.injEq, Prod.mk.injEq] at h
          obtain ⟨k, _, _, hs2⟩ := startEval_some he
          have h2 : keysAscending s2.jobsets := by
            rw [hs2]
            simp only
            rw [keysAscending_iff_names, setPid_names, ← keysAscending_iff_names]
            exact hs
          rw [h.1] at hl
          exact ih s2 st3 h2 hl

/-- In every state of a run the registry has its keys in strictly ascending
order, hence pairwise distinct. -/
theorem reachable_keysAscending (cfg : Config) (s : State) (hs : Reachable cfg s) :
    keysAscending s.jobsets := by
  induction hs with
  | init => simp [State.init, keysAscending]
  | step _ hstep ih =>
    cases hstep with
    | sync res h =>
      rw [(readJobsets_ok h).2]
      exact (keysAscending_readRows _ _ _ _ ih).filter _
    | dispatch env started _ h => exact keysAscending_startLoop cfg env _ _ _ _ ih h
    | reap sts pid status now commits tbl _ h =>
      rw [(reaper_some h).2]
      simp only
      rw [keysAscending_iff_names, reapJobsets_names, ← keysAscending_iff_names]
      exact ih

theorem reachable_keysDistinct (cfg : Config) (s : State) (hs : Reachable cfg s) :
    keysDistinct s.jobsets :=
  keysDistinct_of_ascending (reachable_keysAscending cfg s hs)

/-! ## Runs of the example configurations -/

theorem reachable_trunkIdle : Reachable normalCfg { runningEvals := 0, jobsets := [trunkIdle] } :=
  Reachable.step Reachable.init (Step.sync [trunkRow] (by rfl))

theorem reachable_trunkRunning :
    Reachable normalCfg { runningEvals := 1, jobsets := [trunkRunning] } :=
  Reachable.step reachable_trunkIdle
    (Step.dispatch envAt1000 [("nixos", "trunk")] (fun _ => by simp [envAt1000]) (by decide))

theorem tracked_trunkRunning :
    ReachableTracked normalCfg { runningEvals := 1, jobsets := [trunkRunning] } :=
  ReachableTracked.dispatch envAt1000 [("nixos", "trunk")]
    (ReachableTracked.sync [trunkRow] ReachableTracked.init
      (show readJobsets normalCfg [trunkRow] State.init =
        Except.ok { runningEvals := 0, jobsets := [trunkIdle] } by rfl)
      (by intro j hj; simp [State.init] at hj))
    (fun _ => by simp [envAt1000]) (by decide)

/-! ## C6: the concurrency cap -/

/-- C6. The concurrency cap is an invariant: in every state reachable by sync,
dispatch-pass and reap steps `0 ≤ runningEvals ≤ maxEvals` (for every
`maxEvals`, so also for `maxEvals ≥ 1`); and a dispatch pass entered with
`runningEvals ≤ maxEvals` leaves `runningEvals ≤ maxEvals`, whatever the
registry holds. -/
theorem runningEvals_le_maxEvals (cfg : Config) :
    (∀ s, Reachable cfg s → 0 ≤ s.runningEvals ∧ s.runningEvals ≤ cfg.maxEvals) ∧
    (∀ (env : DispatchEnv) (s s1 : State) (started : List JobsetName),
      s.runningEvals ≤ cfg.maxEvals → startEvals cfg env s = some (s1, started) →
      s1.runningEvals ≤ cfg.maxEvals) := by
  have hpass : ∀ (env : DispatchEnv) (s s1 : State) (started : List JobsetName),
      s.runningEvals ≤ cfg.maxEvals → startEvals cfg env s = some (s1, started) →
      s1.runningEvals ≤ cfg.maxEvals := by
    intro env s s1 started hle h
    exact startLoop_bound cfg env _ s s1 started hle h
  refine ⟨?_, hpass⟩
  intro s hs
  refine ⟨Nat.zero_le _, ?_⟩
  induction hs with
  | init => exact Nat.zero_le _
  | step _ hstep ih =>
    cases hstep with
    | sync res h =>
      rw [(readJobsets_ok h).1]; exact ih
    | dispatch env started _ h => exact hpass env _ _ _ ih h
    | reap sts pid status now commits tbl _ h =>
      rw [(reaper_some h).2]
      simp only
      omega

/-- Witness of C6: after a sync and a dispatch pass one child runs, under the
cap of 4. -/
theorem runningEvals_le_maxEvals_witness :
    Reachable normalCfg { runningEvals := 1, jobsets := [trunkRunning] } ∧
      (0 ≤ 1 ∧ 1 ≤ normalCfg.maxEvals) :=
  ⟨reachable_trunkRunning, (runningEvals_le_maxEvals normalCfg).1 _ reachable_trunkRunning⟩

/-! ## C4: `runningEvals` and the number of recorded children -/

/-- C4, refuted as stated. After a sync that lists `nixos:trunk`, a dispatch
pass that starts it and a sync whose snapshot no longer lists it, the registry
is empty while `runningEvals` is still 1. -/
theorem runningEvals_eq_count_fails :
    ¬ ∀ (cfg : Config) (s : State), Reachable cfg s → s.runningEvals = runningCount s.jobsets := by
  intro h
  have hreach : Reachable normalCfg { runningEvals := 1, jobsets := [] } :=
    Reachable.step reachable_trunkRunning (Step.sync [] (by rfl))
  have := h _ _ hreach
  revert this
  decide

/-- C4, amended. In every state reachable from the initial state by sync,
dispatch-pass and reap steps in which no sync removes a jobset whose pid is
present and every reaped pid is recorded in the registry, `runningEvals` equals
the number of jobsets whose pid is present. -/
theorem runningEvals_eq_count_tracked (cfg : Config) (s : State)
    (hs : ReachableTracked cfg s) : s.runningEvals = runningCount s.jobsets := by
  induction hs with
  | init => rfl
  | @sync res s s1 _ h hkeep ih =>
    obtain ⟨hr, hj⟩ := readJobsets_ok h
    rw [hr, ih, hj, ← readRows_runningCount cfg.evalOne res s.jobsets []]
    unfold runningCount
    rw [List.filter_filter]
    congr 1
    apply List.filter_congr
    intro k hk
    by_cases hp : k.pid = -1
    · simp [hp]
    · simp only [ne_eq, hp, not_false_eq_true, decide_True, Bool.true_and]
      symm
      rw [decide_eq_true_eq]
      rcases mem_readRows cfg.evalOne res s.jobsets [] hk with hin | hseen
      · obtain ⟨k1, hk1, hn⟩ := hkeep k hin hp
        rw [hj] at hk1
        have := (List.mem_filter.mp hk1).2
        rw [decide_eq_true_eq, hn] at this
        exact this
      · exact hseen
  | dispatch env started _ hpid h ih => exact startLoop_tracked cfg env hpid _ _ _ _ ih h
  | reap sts pid status now commits tbl _ hp hj h ih =>
    obtain ⟨h0, hr⟩ := reaper_some h
    rw [hr]
    simp only
    have := runningCount_reapJobsets now hp hj
    omega

/-- Witness of C4 amended: the run sync, dispatch keeps book of its child. -/
theorem runningEvals_eq_count_tracked_witness :
    ReachableTracked normalCfg { runningEvals := 1, jobsets := [trunkRunning] } ∧
      1 = runningCount [trunkRunning] :=
  ⟨tracked_trunkRunning, runningEvals_eq_count_tracked normalCfg _ tracked_trunkRunning⟩

/-! ## C7: what the reaper leaves in memory -/

theorem keysDistinct_tail {k : Jobset} {ks : List Jobset} (h : keysDistinct (k :: ks)) :
    keysDistinct ks := by
  unfold keysDistinct at h ⊢
  rw [List.map_cons, List.nodup_cons] at h
  exact h.2

theorem keysDistinct_head_ne {k j : Jobset} {ks : List Jobset} (h : keysDistinct (k :: ks))
    (hj : j ∈ ks) : j.name ≠ k.name := by
  unfold keysDistinct at h
  rw [List.map_cons, List.nodup_cons] at h
  intro he
  exact h.1 (he ▸ List.mem_map_of_mem Jobset.name hj)

theorem reapJobsets_eq_map {pid : Int} (now : Int) {l : List Jobset} {j : Jobset}
    (hkeys : keysDistinct l) (hj : j ∈ l) (hpid : j.pid = pid)
    (honly : ∀ k ∈ l, k.pid = pid → k.name = j.name) :
    reapJobsets pid now l = l.map (fun k =>
      if k.name = j.name then
        { k with triggerTime := notTriggered, lastCheckedTime := now, pid := -1 }
      else k) := by
  induction l with
  | nil => rfl
  | cons k ks ih =>
    unfold reapJobsets
    by_cases h : k.pid = pid
    · have hn : k.name = j.name := honly k (List.mem_cons_self _ _) h
      rw [if_pos h, List.map_cons, if_pos hn]
      congr 1
      symm
      conv_rhs => rw [← List.map_id ks]
      apply List.map_congr_left
      intro x hx
      have : x.name ≠ k.name := keysDistinct_head_ne hkeys hx
      rw [if_neg (by rw [← hn]; exact this)]
      rfl
    · have hjks : j ∈ ks := by
        rcases List.mem_cons.mp hj with rfl | hj
        · exact absurd hpid h
        · exact hj
      have hn : k.name ≠ j.name := fun he => keysDistinct_head_ne hkeys hjks he.symm
      rw [if_neg h, List.map_cons, if_neg hn]
      congr 1
      exact ih (keysDistinct_tail hkeys) hjks
        (fun x hx hxp => honly x (List.mem_cons_of_mem _ hx) hxp)

/-- C7. Reaper postcondition on the in-memory state. When the reaper handles,
at time `now`, the exit of the child recorded in jobset `j` (in a registry with
distinct keys, `j` the only entry with that pid, `runningEvals > 0` as the
reaper asserts), the block completes and afterwards the entry of `j` has
`triggerTime = MAX`, `lastCheckedTime = now` and no pid, `runningEvals` is one
less than before, and every other entry (and every other member of `j`) is
unchanged; this holds for every exit status and whether the writeback commits
or throws. -/
theorem reaper_postcondition (cfg : Config) (statusToString : Nat → String) (status : Nat)
    (now : Int) (commits : Bool) (tbl : List JobsetsRow) (st : State) (j : Jobset)
    (hrun : 0 < st.runningEvals) (hkeys : keysDistinct st.jobsets) (hj : j ∈ st.jobsets)
    (hpresent : j.pid ≠ -1) (honly : ∀ k ∈ st.jobsets, k.pid = j.pid → k.name = j.name) :
    ∃ r, reaper cfg statusToString j.pid status now commits st tbl = some r ∧
      r.state.runningEvals + 1 = st.runningEvals ∧
      r.state.jobsets = st.jobsets.map (fun k =>
        if k.name = j.name then
          { k with triggerTime := notTriggered, lastCheckedTime := now, pid := -1 }
        else k) ∧
      { j with triggerTime := notTriggered, lastCheckedTime := now, pid := -1 } ∈ r.state.jobsets ∧
      ∀ k ∈ st.jobsets, k.name ≠ j.name → k ∈ r.state.jobsets := by
  have h0 : st.runningEvals ≠ 0 := by omega
  have _ := hpresent
  have hmap := reapJobsets_eq_map now hkeys hj rfl honly
  refine ⟨_, by unfold reaper; rw [if_neg h0], ?_, ?_, ?_, ?_⟩
  · simp only; omega
  · exact hmap
  · simp only
    rw [hmap]
    exact List.mem_map.mpr ⟨j, hj, by simp⟩
  · intro k hk hn
    simp only
    rw [hmap]
    exact List.mem_map.mpr ⟨k, hk, by simp [hn]⟩

/-- Witness of C7: the child 4711 of `nixos:trunk` is killed by signal 9 at
time 2000 and the writeback throws. -/
theorem reaper_postcondition_witness :
    ∃ r, reaper normalCfg (fun _ => "failed") trunkRunning.pid 9 2000 false
        { runningEvals := 1, jobsets := [trunkRunning] } [] = some r ∧
      r.state.runningEvals + 1 = 1 ∧
      r.state.jobsets = [trunkRunning].map (fun k =>
        if k.name = trunkRunning.name then
          { k with triggerTime := notTriggered, lastCheckedTime := 2000, pid := -1 }
        else k) ∧
      { trunkRunning with triggerTime := notTriggered, lastCheckedTime := 2000, pid := -1 } ∈
        r.state.jobsets ∧
      ∀ k ∈ [trunkRunning], k.name ≠ trunkRunning.name → k ∈ r.state.jobsets :=
  reaper_postcondition normalCfg (fun _ => "failed") 9 2000 false []
    { runningEvals := 1, jobsets := [trunkRunning] } trunkRunning
    (by decide) (by unfold keysDistinct; decide) (by simp) (by decide)
    (by intro k hk _; simp at hk; rw [hk])

/-! ## C10: the error columns written by the reaper -/

/-- The error columns after the reaper's transaction, row by row. -/
theorem reaperTxn_error_columns (statusToString : Nat → String) (name : JobsetName) (status : Nat)
    (now : Int) (tbl : List JobsetsRow) :
    (reaperTxn statusToString name status now tbl).map
        (fun r => ((r.project, r.name), r.errorMsg, r.lastCheckedTime, r.errorTime, r.fetchErrorMsg)) =
      tbl.map (fun r =>
        if (r.project, r.name) = name ∧ (WIFEXITED status = false ∨ 1 < WEXITSTATUS status) then
          ((r.project, r.name), some ("evaluation " ++ statusToString status), some now, some now,
            none)
        else ((r.project, r.name), r.errorMsg, r.lastCheckedTime, r.errorTime, r.fetchErrorMsg)) := by
  have hrow : ∀ r : JobsetsRow, rowIs name r = true ↔ (r.project, r.name) = name := by
    intro r
    unfold rowIs
    simp [Prod.ext_iff]
  unfold reaperTxn
  simp only [List.map_map]
  by_cases hbad : WIFEXITED status = false ∨ 1 < WEXITSTATUS status
  · have hc : (!WIFEXITED status || decide (WEXITSTATUS status > 1)) = true := by
      rcases hbad with h | h
      · simp [h]
      · simp [h]
    rw [if_pos hc]
    simp only [List.map_map]
    apply List.map_congr_left
    intro r _
    simp only [Function.comp]
    by_cases h1 : rowIs name r = true
    · have hk := (hrow r).mp h1
      have hp : r.project = name.1 := by rw [← hk]
      have hn : r.name = name.2 := by rw [← hk]
      by_cases h2 : triggerNotAfterStart r = true
      · simp [h1, h2, rowIs, hp, hn, hbad]
      · simp [h1, h2, rowIs, hp, hn, hbad]
    · have hk : ¬ (r.project, r.name) = name := fun h => h1 ((hrow r).mpr h)
      simp [h1, hk]
  · have hc : ¬ (!WIFEXITED status || decide (WEXITSTATUS status > 1)) = true := by
      intro h
      apply hbad
      simp only [Bool.or_eq_true, Bool.not_eq_true', decide_eq_true_eq] at h
      exact h
    rw [if_neg hc]
    simp only [List.map_map]
    apply List.map_congr_left
    intro r _
    simp only [Function.comp, hbad, and_false, if_false]
    by_cases h1 : rowIs name r = true
    · have hk := (hrow r).mp h1
      have hp : r.project = name.1 := by rw [← hk]
      have hn : r.name = name.2 := by rw [← hk]
      by_cases h2 : triggerNotAfterStart r = true
      · simp [h1, h2, rowIs, hp, hn]
      · simp [h1, h2, rowIs, hp, hn]
    · simp [h1]

/-- C10. The reaper records an error in the store row of the jobset whose
child exited if and only if the child did not exit normally or its exit status
is greater than 1: when its transaction commits, in exactly those cases the row
has `errorMsg = "evaluation <status>"`, `lastCheckedTime = now`, `errorTime =
now` and `fetchErrorMsg = NULL`; after a normal exit with status 0 or 1 those
four columns are as before (as they are, in every case, in the rows of other
jobsets). -/
theorem reaper_error_columns (cfg : Config) (statusToString : Nat → String) (pid : Int)
    (status : Nat) (now : Int) (st : State) (tbl : List JobsetsRow) (j : Jobset)
    (hrun : 0 < st.runningEvals)
    (hj : st.jobsets.find? (fun k => decide (k.pid = pid)) = some j) :
    ∃ r, reaper cfg statusToString pid status now true st tbl = some r ∧
      r.table.map
          (fun r => ((r.project, r.name), r.errorMsg, r.lastCheckedTime, r.errorTime, r.fetchErrorMsg)) =
        tbl.map (fun r =>
          if (r.project, r.name) = j.name ∧ (WIFEXITED status = false ∨ 1 < WEXITSTATUS status) then
            ((r.project, r.name), some ("evaluation " ++ statusToString status), some now, some now,
              none)
          else ((r.project, r.name), r.errorMsg, r.lastCheckedTime, r.errorTime, r.fetchErrorMsg)) := by
  have h0 : st.runningEvals ≠ 0 := by omega
  refine ⟨_, by unfold reaper; rw [if_neg h0], ?_⟩
  simp only [hj, if_true]
  exact reaperTxn_error_columns statusToString j.name status now tbl

/-- Witness of C10 (scenario "abnormal exit recording"): the child of
`nixos:trunk` is killed by signal 9 at time 2000. -/
theorem reaper_error_columns_witness :
    (∃ r, reaper normalCfg (fun _ => "failed due to signal 9") 4711 9 2000 true
        { runningEvals := 1, jobsets := [trunkRunning] } [trunkStored] = some r ∧
      r.table.map
          (fun r => ((r.project, r.name), r.errorMsg, r.lastCheckedTime, r.errorTime, r.fetchErrorMsg)) =
        [trunkStored].map (fun r =>
          if (r.project, r.name) = trunkRunning.name ∧ (WIFEXITED 9 = false ∨ 1 < WEXITSTATUS 9) then
            ((r.project, r.name), some ("evaluation " ++ "failed due to signal 9"), some 2000,
              some 2000, none)
          else ((r.project, r.name), r.errorMsg, r.lastCheckedTime, r.errorTime, r.fetchErrorMsg))) ∧
    (reaper normalCfg (fun _ => "failed due to signal 9") 4711 9 2000 true
        { runningEvals := 1, jobsets := [trunkRunning] } [trunkStored]).map (fun r => r.table) =
      some [{ trunkStored with
        startTime := none
        errorMsg := some "evaluation failed due to signal 9"
        lastCheckedTime := some 2000
        errorTime := some 2000
        fetchErrorMsg := none }] ∧
    (reaper normalCfg (fun _ => "failed with exit code 1") 4711 256 2000 true
        { runningEvals := 1, jobsets := [trunkRunning] } [trunkStored]).map (fun r => r.table) =
      some [{ trunkStored with startTime := none }] :=
  ⟨reaper_error_columns normalCfg (fun _ => "failed due to signal 9") 4711 9 2000
    { runningEvals := 1, jobsets := [trunkRunning] } [trunkStored] trunkRunning
    (by decide) (by decide), by decide, by decide⟩

/-! ## C8: what a sync keeps and what it removes -/

theorem readRows_seen_of_row (evalOne : Option JobsetName) (rows : List Row) (l : List Jobset)
    (seen : List JobsetName) {row : Row} (hrow : row ∈ rows)
    (hone : evalOne = none ∨ evalOne = some (row.project, row.name)) :
    (row.project, row.name) ∈ (readRows evalOne rows (l, seen)).2 := by
  induction rows generalizing l seen with
  | nil => simp at hrow
  | cons r rest ih =>
    simp only [readRows]
    rcases List.mem_cons.mp hrow with rfl | hrest
    · have hskip : ¬ (evalOne.isSome && decide (some (row.project, row.name) ≠ evalOne)) = true := by
        rcases hone with h | h
        · simp [h]
        · simp [h]
      rw [if_neg hskip]
      exact readRows_seen_mono _ _ _ _ (List.mem_cons_self _ _)
    · split_ifs
      · exact ih l seen hrest
      · exact ih _ _ hrest

theorem readRows_seen_sub (evalOne : Option JobsetName) (rows : List Row) (l : List Jobset)
    (seen : List JobsetName) {n : JobsetName} (hn : n ∈ (readRows evalOne rows (l, seen)).2) :
    n ∈ seen ∨ ∃ row ∈ rows, (row.project, row.name) = n ∧
      (evalOne = none ∨ evalOne = some n) := by
  induction rows generalizing l seen with
  | nil => exact Or.inl hn
  | cons r rest ih =>
    simp only [readRows] at hn
    split_ifs at hn with hskip
    · rcases ih l seen hn with h | ⟨row, hr, he⟩
      · exact Or.inl h
      · exact Or.inr ⟨row, List.mem_cons_of_mem _ hr, he⟩
    · rcases ih _ _ hn with h | ⟨row, hr, he⟩
      · rcases List.mem_cons.mp h with rfl | h
        · right
          refine ⟨r, List.mem_cons_self _ _, rfl, ?_⟩
          cases heo : evalOne with
          | none => exact Or.inl rfl
          | some e =>
            right
            rw [heo] at hskip
            simp only [Option.isSome_some, ne_eq, Bool.true_and, decide_eq_true_eq,
              not_not] at hskip
            exact hskip.symm
        · exact Or.inl h
      · exact Or.inr ⟨row, List.mem_cons_of_mem _ hr, he⟩

theorem nameLt_negtrans {a b c : JobsetName} (hba : nameLt b a = false)
    (hcb : nameLt c b = false) : nameLt c a = false := by
  cases hca : nameLt c a with
  | false => rfl
  | true =>
    exfalso
    cases hab : nameLt a b with
    | true =>
      have := nameLt_trans hca hab
      rw [hcb] at this
      exact absurd this (by simp)
    | false =>
      have : a = b := nameLt_total hab hba
      subst this
      rw [hcb] at hca
      exact absurd hca (by simp)

theorem before_eq_true_iff (a b : Jobset) : before a b = true ↔ ascending a b := by
  unfold before ascending
  by_cases hT : a.triggerTime = b.triggerTime
  · by_cases hL : a.lastCheckedTime = b.lastCheckedTime
    · simp [hT, hL]
    · simp only [hT, hL, ne_eq, not_true_eq_false, if_false, not_false_eq_true, if_true,
        decide_eq_true_eq, lt_self_iff_false, true_and, false_and, or_false, false_or]
  · simp only [hT, ne_eq, not_false_eq_true, if_true, decide_eq_true_eq, false_and, or_false]

theorem before_asymm {a b : Jobset} (h : before a b = true) : before b a = false := by
  cases hba : before b a with
  | false => rfl
  | true =>
    exfalso
    rw [before_eq_true_iff] at h hba
    unfold ascending at h hba
    rcases h with h | ⟨h1, h | ⟨h2, h3⟩⟩ <;> rcases hba with g | ⟨g1, g | ⟨g2, g3⟩⟩ <;>
      first
      | omega
      | exact absurd g3 (by rw [nameLt_asymm h3]; simp)

theorem before_total {a b : Jobset} (hab : before a b = false) (hba : before b a = false) :
    a.triggerTime = b.triggerTime ∧ a.lastCheckedTime = b.lastCheckedTime ∧ a.name = b.name := by
  unfold before at hab hba
  by_cases hT : a.triggerTime = b.triggerTime
  · by_cases hL : a.lastCheckedTime = b.lastCheckedTime
    · simp only [hT, hL, ne_eq, not_true_eq_false, if_false] at hab hba
      exact ⟨hT, hL, nameLt_total hab hba⟩
    · exfalso
      have hL' : ¬ b.lastCheckedTime = a.lastCheckedTime := fun h => hL h.symm
      simp only [hT, hL, hL', ne_eq, not_true_eq_false, if_false, not_false_eq_true, if_true,
        decide_eq_false_iff_not] at hab hba
      omega
  · exfalso
    have hT' : ¬ b.triggerTime = a.triggerTime := fun h => hT h.symm
    simp only [hT, hT', ne_eq, not_false_eq_true, if_true, decide_eq_false_iff_not] at hab hba
    omega

theorem before_negtrans {a b c : Jobset} (hba : before b a = false) (hcb : before c b = false) :
    before c a = false := by
  cases hca : before c a with
  | false => rfl
  | true =>
    exfalso
    cases hab : before a b with
    | true =>
      cases hbc : before b c with
      | true =>
        rw [before_eq_true_iff] at hca hab hbc
        unfold ascending at hca hab hbc
        rcases hca with h | ⟨h1, h | ⟨h2, h3⟩⟩ <;> rcases hab with g | ⟨g1, g | ⟨g2, g3⟩⟩ <;>
          rcases hbc with f | ⟨f1, f | ⟨f2, f3⟩⟩ <;>
          first
          | omega
          | exact absurd (nameLt_trans (nameLt_trans h3 g3) f3) (by rw [nameLt_irrefl]; simp)
      | false =>
        obtain ⟨e1, e2, e3⟩ := before_total hbc hcb
        rw [before_eq_true_iff] at hca hab
        unfold ascending at hca hab
        rcases hca with h | ⟨h1, h | ⟨h2, h3⟩⟩ <;> rcases hab with g | ⟨g1, g | ⟨g2, g3⟩⟩ <;>
          first
          | omega
          | exact absurd (nameLt_trans h3 (e3 ▸ g3)) (by rw [nameLt_irrefl]; simp)
    | false =>
      obtain ⟨e1, e2, e3⟩ := before_total hab hba
      have hcb' : before c b = true := by
        rw [before_eq_true_iff] at hca ⊢
        unfold ascending at hca ⊢
        rw [← e1, ← e2, ← e3]
        exact hca
      rw [hcb] at hcb'
      exact absurd hcb' (by simp)

/-! ## The sort of `startEvals` -/

theorem stdSort_perm (l : List Jobset) : (stdSort l).Perm l :=
  List.perm_insertionSort _ l

theorem stdSort_sorted (l : List Jobset) :
    (stdSort l).Pairwise (fun a b => before b a = false) := by
  have htotal : IsTotal Jobset (fun a b => before b a = false) :=
    ⟨fun a b => by
      cases h : before b a with
      | false => exact Or.inl rfl
      | true => exact Or.inr (before_asymm h)⟩
  have htrans : IsTrans Jobset (fun a b => before b a = false) :=
    ⟨fun _ _ _ hab hbc => before_negtrans hab hbc⟩
  exact List.sorted_insertionSort (fun a b => before b a = false) l

theorem stdSort_ascending {l : List Jobset} (hkeys : keysDistinct l) :
    (stdSort l).Pairwise ascending := by
  have hnd : (stdSort l).Pairwise (fun a b => a.name ≠ b.name) := by
    have : ((stdSort l).map Jobset.name).Nodup :=
      ((stdSort_perm l).map Jobset.name).nodup_iff.mpr hkeys
    exact List.pairwise_map.mp this
  refine ((stdSort_sorted l).and hnd).imp ?_
  intro a b h
  obtain ⟨h1, h2⟩ := h
  rw [← before_eq_true_iff]
  cases hab : before a b with
  | true => rfl
  | false => exact absurd (before_total hab h1).2.2 h2

/-! ## The launch loop on a registry with distinct keys -/

theorem withChild_nil (env : DispatchEnv) (l : List Jobset) : l.map (withChild env []) = l := by
  conv_rhs => rw [← List.map_id l]
  apply List.map_congr_left
  intro x _
  simp [withChild]

theorem find?_of_mem_distinct {l : List Jobset} {j : Jobset} (hkeys : keysDistinct l)
    (hj : j ∈ l) : l.find? (fun k => decide (k.name = j.name)) = some j := by
  induction l with
  | nil => simp at hj
  | cons x xs ih =>
    rcases List.mem_cons.mp hj with rfl | hj
    · simp
    · have hne : x.name ≠ j.name := fun h => keysDistinct_head_ne hkeys hj h.symm
      rw [List.find?_cons]
      simp only [hne, decide_False]
      exact ih (keysDistinct_tail hkeys) hj

theorem setPid_eq_map {m : JobsetName} {p : Int} {l : List Jobset} (hkeys : keysDistinct l) :
    setPid m p l = l.map (fun k => if k.name = m then { k with pid := p } else k) := by
  induction l with
  | nil => rfl
  | cons x xs ih =>
    unfold setPid
    by_cases h : x.name = m
    · rw [if_pos h, List.map_cons, if_pos h]
      congr 1
      conv_lhs => rw [← List.map_id xs]
      apply List.map_congr_left
      intro y hy
      have : y.name ≠ x.name := keysDistinct_head_ne hkeys hy
      rw [if_neg (by rw [← h]; exact this)]
      rfl
    · rw [if_neg h, List.map_cons, if_neg h, ih (keysDistinct_tail hkeys)]

theorem keysDistinct_setPid {m : JobsetName} {p : Int} {l : List Jobset}
    (hkeys : keysDistinct l) : keysDistinct (setPid m p l) := by
  unfold keysDistinct
  rw [setPid_names]
  exact hkeys

theorem startLoop_spec (cfg : Config) (env : DispatchEnv) (l : List Jobset) (st : State)
    (hkeys : keysDistinct st.jobsets) (hl : keysDistinct l)
    (hfree : ∀ i ∈ l, i ∈ st.jobsets ∧ i.pid = -1) :
    startLoop cfg env l st = some
      ({ runningEvals := st.runningEvals + min l.length (cfg.maxEvals - st.runningEvals)
         jobsets := st.jobsets.map (withChild env
          ((l.take (min l.length (cfg.maxEvals - st.runningEvals))).map Jobset.name)) },
        (l.take (min l.length (cfg.maxEvals - st.runningEvals))).map Jobset.name) := by
  induction l generalizing st with
  | nil => simp [startLoop, withChild_nil]
  | cons i rest ih =>
    unfold startLoop
    by_cases hge : st.runningEvals ≥ cfg.maxEvals
    · have h0 : cfg.maxEvals - st.runningEvals = 0 := by omega
      rw [if_pos hge, h0]
      simp [withChild_nil]
    · rw [if_neg hge]
      obtain ⟨hi, hip⟩ := hfree i (List.mem_cons_self _ _)
      have hfind := find?_of_mem_distinct hkeys hi
      have hstart : startEval env st i.name = some
          { runningEvals := st.runningEvals + 1
            jobsets := setPid i.name (env.startProcess i.name) st.jobsets } := by
        unfold startEval
        rw [hfind]
        simp [hip]
      rw [hstart]
      simp only
      have hrest : ∀ x ∈ rest, x.name ≠ i.name := fun x hx => keysDistinct_head_ne hl hx
      have hfree1 : ∀ x ∈ rest,
          x ∈ setPid i.name (env.startProcess i.name) st.jobsets ∧ x.pid = -1 := by
        intro x hx
        obtain ⟨hxin, hxp⟩ := hfree x (List.mem_cons_of_mem _ hx)
        refine ⟨?_, hxp⟩
        rw [setPid_eq_map hkeys]
        exact List.mem_map.mpr ⟨x, hxin, by rw [if_neg (hrest x hx)]⟩
      rw [ih { runningEvals := st.runningEvals + 1
               jobsets := setPid i.name (env.startProcess i.name) st.jobsets }
        (keysDistinct_setPid hkeys) (keysDistinct_tail hl) hfree1]
      simp only
      have hn : min (i :: rest).length (cfg.maxEvals - st.runningEvals) =
          min rest.length (cfg.maxEvals - (st.runningEvals + 1)) + 1 := by
        simp only [List.length_cons]
        omega
      rw [hn, List.take_succ_cons, List.map_cons]
      simp only [Option.some.injEq, Prod.mk.injEq, State.mk.injEq, and_true]
      refine ⟨by omega, ?_⟩
      rw [setPid_eq_map hkeys, List.map_map]
      apply List.map_congr_left
      intro x _
      have hnot : i.name ∉
          (rest.take (min rest.length (cfg.maxEvals - (st.runningEvals + 1)))).map Jobset.name := by
        intro hmem
        obtain ⟨y, hy, hyn⟩ := List.mem_map.mp hmem
        exact hrest y (List.mem_of_mem_take hy) hyn
      by_cases hx : x.name = i.name
      · simp only [Function.comp, hx, if_true, withChild, hnot, if_false, List.mem_cons, true_or]
      · simp only [Function.comp, hx, if_false, withChild, List.mem_cons, false_or]

theorem selected_pid (cfg : Config) (env : DispatchEnv) (st : State)
    (hmode : cfg.evalOne = none ∨ ∀ j ∈ st.jobsets, j.pid = -1) :
    ∀ j ∈ selected cfg env st, j ∈ st.jobsets ∧ j.pid = -1 := by
  intro j hj
  unfold selected at hj
  obtain ⟨hin, hsel⟩ := List.mem_filter.mp hj
  refine ⟨hin, ?_⟩
  rcases hmode with h | h
  · rw [h] at hsel
    simp only [Option.isSome_none, Bool.false_or, Bool.and_eq_true] at hsel
    by_contra hp
    have hfalse : shouldEvaluate env.db env.now j = false := shouldEvaluate_of_pid hp
    rw [hfalse] at hsel
    exact absurd hsel.2 (by simp)
  · exact h j hin

theorem keysDistinct_selected (cfg : Config) (env : DispatchEnv) (st : State)
    (hkeys : keysDistinct st.jobsets) : keysDistinct (selected cfg env st) := by
  unfold keysDistinct selected at *
  exact hkeys.sublist ((List.filter_sublist _).map Jobset.name)

theorem keysDistinct_stdSort {l : List Jobset} (hkeys : keysDistinct l) :
    keysDistinct (stdSort l) :=
  ((stdSort_perm l).map Jobset.name).nodup_iff.mpr hkeys

theorem startEvals_spec (cfg : Config) (env : DispatchEnv) (st : State)
    (hkeys : keysDistinct st.jobsets)
    (hmode : cfg.evalOne = none ∨ ∀ j ∈ st.jobsets, j.pid = -1) :
    startEvals cfg env st = some
      ({ runningEvals := st.runningEvals +
          min (selected cfg env st).length (cfg.maxEvals - st.runningEvals)
         jobsets := st.jobsets.map (withChild env
          (((stdSort (selected cfg env st)).take
            (min (selected cfg env st).length (cfg.maxEvals - st.runningEvals))).map Jobset.name)) },
        ((stdSort (selected cfg env st)).take
          (min (selected cfg env st).length (cfg.maxEvals - st.runningEvals))).map Jobset.name) := by
  have hlen : (stdSort (selected cfg env st)).length = (selected cfg env st).length :=
    (stdSort_perm _).length_eq
  have hfree : ∀ i ∈ stdSort (selected cfg env st), i ∈ st.jobsets ∧ i.pid = -1 :=
    fun i hi => selected_pid cfg env st hmode i ((stdSort_perm _).mem_iff.mp hi)
  have := startLoop_spec cfg env (stdSort (selected cfg env st)) st hkeys
    (keysDistinct_stdSort (keysDistinct_selected cfg env st hkeys)) hfree
  rw [hlen] at this
  exact this

/-! ## C3: which jobsets a dispatch pass starts, and in which order -/

theorem eq_of_name_eq {l : List Jobset} {a b : Jobset} (hkeys : keysDistinct l) (ha : a ∈ l)
    (hb : b ∈ l) (hn : a.name = b.name) : a = b := by
  have h1 := find?_of_mem_distinct hkeys ha
  have h2 := find?_of_mem_distinct hkeys hb
  rw [hn, h2] at h1
  exact (Option.some.inj h1).symm

theorem name_not_mem_take {l : List Jobset} (hkeys : keysDistinct l) (n : Nat) {j : Jobset}
    (hj : j ∈ l.drop n) : j.name ∉ (l.take n).map Jobset.name := by
  unfold keysDistinct at hkeys
  rw [← List.take_append_drop n l, List.map_append, List.nodup_append] at hkeys
  intro h
  exact hkeys.2.2 h (List.mem_map_of_mem Jobset.name hj)

/-- C3. In a dispatch pass (`startEvals`, on a registry with distinct keys in
which every selected entry has no pid, as is always so without `evalOne`) the
jobsets started are exactly the first `min(k, maxEvals - runningEvals)` entries
of the `k` eligible jobsets (those the filter selects) listed in ascending
order of (`triggerTime`, `lastCheckedTime`, `JobsetName`), started in that
order; each of them gets its child's pid, `runningEvals` grows by their number,
and every eligible jobset past them is left as it was, with pid absent. -/
theorem startEvals_starts_sorted_head (cfg : Config) (env : DispatchEnv) (st : State)
    (hkeys : keysDistinct st.jobsets)
    (hmode : cfg.evalOne = none ∨ ∀ j ∈ st.jobsets, j.pid = -1) :
    ∃ (sorted : List Jobset) (s1 : State),
      sorted.Perm (selected cfg env st) ∧
      sorted.Pairwise ascending ∧
      startEvals cfg env st =
        some (s1, (sorted.take (launchCount cfg env st)).map Jobset.name) ∧
      s1.runningEvals = st.runningEvals + launchCount cfg env st ∧
      s1.jobsets = st.jobsets.map
        (withChild env ((sorted.take (launchCount cfg env st)).map Jobset.name)) ∧
      (∀ j ∈ sorted.take (launchCount cfg env st),
        j.pid = -1 ∧ { j with pid := env.startProcess j.name } ∈ s1.jobsets) ∧
      (∀ j ∈ sorted.drop (launchCount cfg env st), j.pid = -1 ∧ j ∈ s1.jobsets) := by
  have hsel := keysDistinct_selected cfg env st hkeys
  have hsorted := keysDistinct_stdSort hsel
  have hmem : ∀ j ∈ stdSort (selected cfg env st), j ∈ st.jobsets ∧ j.pid = -1 :=
    fun j hj => selected_pid cfg env st hmode j ((stdSort_perm _).mem_iff.mp hj)
  refine ⟨stdSort (selected cfg env st), _, stdSort_perm _, stdSort_ascending hsel,
    startEvals_spec cfg env st hkeys hmode, rfl, rfl, ?_, ?_⟩
  · intro j hj
    obtain ⟨hin, hp⟩ := hmem j (List.mem_of_mem_take hj)
    refine ⟨hp, ?_⟩
    simp only
    refine List.mem_map.mpr ⟨j, hin, ?_⟩
    unfold withChild
    exact if_pos (List.mem_map_of_mem Jobset.name hj)
  · intro j hj
    obtain ⟨hin, hp⟩ := hmem j (List.mem_of_mem_drop hj)
    refine ⟨hp, ?_⟩
    simp only
    refine List.mem_map.mpr ⟨j, hin, ?_⟩
    unfold withChild
    exact if_neg (name_not_mem_take hsorted _ hj)

/-- Witness of C3 (scenario "concurrency cap"): of A, B, C with trigger times
10, 20, MAX and a cap of 2, the pass starts A then B and leaves C. -/
theorem startEvals_starts_sorted_head_witness :
    (∃ (sorted : List Jobset) (s1 : State),
      sorted.Perm (selected capCfg capEnv capState) ∧
      sorted.Pairwise ascending ∧
      startEvals capCfg capEnv capState =
        some (s1, (sorted.take (launchCount capCfg capEnv capState)).map Jobset.name) ∧
      s1.runningEvals = capState.runningEvals + launchCount capCfg capEnv capState ∧
      s1.jobsets = capState.jobsets.map
        (withChild capEnv ((sorted.take (launchCount capCfg capEnv capState)).map Jobset.name)) ∧
      (∀ j ∈ sorted.take (launchCount capCfg capEnv capState),
        j.pid = -1 ∧ { j with pid := capEnv.startProcess j.name } ∈ s1.jobsets) ∧
      (∀ j ∈ sorted.drop (launchCount capCfg capEnv capState), j.pid = -1 ∧ j ∈ s1.jobsets)) ∧
    startEvals capCfg capEnv capState =
      some ({ runningEvals := 2,
              jobsets := [{ capA with pid := 101 }, { capB with pid := 102 }, capC] },
        [("p", "a"), ("p", "b")]) :=
  ⟨startEvals_starts_sorted_head capCfg capEnv capState (by unfold keysDistinct; decide)
    (Or.inl rfl), by decide⟩

/-! ## C5: jobsets without automatic scheduling and without trigger -/

/-- C5, refuted as stated. With `nixos:trunk` given on the command line the
filter of `startEvals` bypasses `shouldEvaluate`: the pass starts the jobset
although `checkInterval = 0` and `triggerTime = MAX`. -/
theorem startEvals_evalOne_starts_manual :
    ¬ ∀ (cfg : Config) (env : DispatchEnv) (st s1 : State) (started : List JobsetName)
        (j : Jobset), j ∈ st.jobsets → j.checkInterval ≤ 0 → j.triggerTime = notTriggered →
        startEvals cfg env st = some (s1, started) → j.name ∉ started := by
  intro h
  have := h oneCfg envAt1000 { runningEvals := 0, jobsets := [manualJobset] }
    { runningEvals := 1, jobsets := [{ manualJobset with pid := 4711 }] } [("nixos", "trunk")]
    manualJobset (by simp) (by decide) rfl (by decide)
  exact this (by decide)

/-- C5, amended. When no single jobset was given on the command line, a jobset
with `checkInterval ≤ 0` and `triggerTime = MAX` is never launched: for every
registry state (with distinct keys) and every time, a dispatch pass completes
without starting an evaluation for it and leaves its entry as it was. -/
theorem startEvals_skips_manual (cfg : Config) (env : DispatchEnv) (st : State) (j : Jobset)
    (hnormal : cfg.evalOne = none) (hkeys : keysDistinct st.jobsets) (hj : j ∈ st.jobsets)
    (hci : j.checkInterval ≤ 0) (htt : j.triggerTime = notTriggered) :
    ∃ (s1 : State) (started : List JobsetName),
      startEvals cfg env st = some (s1, started) ∧ j.name ∉ started ∧ j ∈ s1.jobsets := by
  have hnot : j.name ∉ ((stdSort (selected cfg env st)).take
      (min (selected cfg env st).length (cfg.maxEvals - st.runningEvals))).map Jobset.name := by
    intro hmem
    obtain ⟨y, hy, hyn⟩ := List.mem_map.mp hmem
    have hysel : y ∈ selected cfg env st := (stdSort_perm _).mem_iff.mp (List.mem_of_mem_take hy)
    have hyin : y ∈ st.jobsets := (List.mem_filter.mp hysel).1
    have hyj : y = j := eq_of_name_eq hkeys hyin hj hyn
    subst hyj
    have hs := (List.mem_filter.mp hysel).2
    rw [hnormal] at hs
    simp only [Option.isSome_none, Bool.false_or, Bool.and_eq_true] at hs
    have hfalse : shouldEvaluate env.db env.now y = false := shouldEvaluate_of_manual htt hci
    rw [hfalse] at hs
    exact absurd hs.2 (by simp)
  refine ⟨_, _, startEvals_spec cfg env st hkeys (Or.inl hnormal), hnot, ?_⟩
  simp only
  refine List.mem_map.mpr ⟨j, hj, ?_⟩
  unfold withChild
  rw [if_neg hnot]

/-- Witness of C5 amended: the scheduler in normal mode leaves the jobset with
`checkInterval = 0` and no trigger alone. -/
theorem startEvals_skips_manual_witness :
    ∃ (s1 : State) (started : List JobsetName),
      startEvals normalCfg envAt1000 { runningEvals := 0, jobsets := [manualJobset] } =
        some (s1, started) ∧
      manualJobset.name ∉ started ∧ manualJobset ∈ s1.jobsets :=
  startEvals_skips_manual normalCfg envAt1000 { runningEvals := 0, jobsets := [manualJobset] }
    manualJobset rfl (by unfold keysDistinct; decide) (by simp) (by decide) rfl

/-! ## C2: the assertion of `startEval` -/

theorem reachable_one_trunkRunning :
    Reachable oneCfg { runningEvals := 1, jobsets := [trunkRunning] } :=
  Reachable.step
    (Reachable.step Reachable.init
      (Step.sync [trunkRow]
        (show readJobsets oneCfg [trunkRow] State.init =
          Except.ok { runningEvals := 0, jobsets := [trunkIdle] } by rfl)))
    (Step.dispatch envAt1000 [("nixos", "trunk")] (fun _ => by simp [envAt1000]) (by decide))

/-- C2, the code at the failing input. With `nixos:trunk` given on the command
line, a sync and a dispatch pass lead to the state in which its child runs; the
next dispatch pass selects the jobset again (the filter skips `shouldEvaluate`,
the cap of 4 is not reached) and `startEval` fails `assert(jobset.pid == -1)`. -/
theorem startEvals_evalOne_assert_fails :
    Reachable oneCfg { runningEvals := 1, jobsets := [trunkRunning] } ∧
      selected oneCfg envAt1000 { runningEvals := 1, jobsets := [trunkRunning] } = [trunkRunning] ∧
      startEval envAt1000 { runningEvals := 1, jobsets := [trunkRunning] } trunkRunning.name = none ∧
      startEvals oneCfg envAt1000 { runningEvals := 1, jobsets := [trunkRunning] } = none :=
  ⟨reachable_one_trunkRunning, by decide, by decide, by decide⟩

/-! ## C9: the style after a sync -/

/-- C9, the code at the failing input. A sync whose row for `nixos:trunk` has
`enabled = 4` leaves the style SCHEDULE that an earlier sync gave the entry
(the `switch` assigns nothing), and a dispatch pass in normal mode then starts
the jobset; the same row gives a new entry no style. -/
theorem readJobsets_keeps_stale_style :
    readJobsets normalCfg [strayRow] { runningEvals := 0, jobsets := [trunkIdle] } =
        Except.ok { runningEvals := 0, jobsets := [trunkIdle] } ∧
      startEvals normalCfg envAt1000 { runningEvals := 0, jobsets := [trunkIdle] } =
        some ({ runningEvals := 1, jobsets := [trunkRunning] }, [("nixos", "trunk")]) ∧
      readJobsets normalCfg [strayRow] State.init =
        Except.ok { runningEvals := 0,
                    jobsets := [{ trunkIdle with evaluation_style := none }] } :=
  ⟨by rfl, by decide, by rfl⟩

/-! ## C11: `startTime` and `triggerTime` after the reaper's transaction -/

theorem rowIs_iff (name : JobsetName) (r : JobsetsRow) :
    rowIs name r = true ↔ (r.project, r.name) = name := by
  unfold rowIs
  simp [Prod.ext_iff]

theorem triggerNotAfterStart_iff (r : JobsetsRow) :
    triggerNotAfterStart r = true ↔
      ∃ s t, r.startTime = some s ∧ r.triggerTime = some t ∧ t ≤ s := by
  unfold triggerNotAfterStart
  cases hs : r.startTime with
  | none => simp
  | some s =>
    cases ht : r.triggerTime with
    | none => simp
    | some t => simp

/-- The start and trigger columns after the reaper's transaction, row by row. -/
theorem reaperTxn_start_trigger (statusToString : Nat → String) (name : JobsetName)
    (status : Nat) (now : Int) (tbl : List JobsetsRow) :
    List.Forall₂ (fun old new =>
        (new.project, new.name) = (old.project, old.name) ∧
        ((old.project, old.name) = name →
          new.startTime = none ∧
          ((∃ s t, old.startTime = some s ∧ old.triggerTime = some t ∧ t ≤ s) →
            new.triggerTime = none) ∧
          ((¬ ∃ s t, old.startTime = some s ∧ old.triggerTime = some t ∧ t ≤ s) →
            new.triggerTime = old.triggerTime)) ∧
        ((old.project, old.name) ≠ name →
          new.startTime = old.startTime ∧ new.triggerTime = old.triggerTime))
      tbl (reaperTxn statusToString name status now tbl) := by
  unfold reaperTxn
  simp only
  split_ifs
  all_goals
    simp only [List.map_map, List.forall₂_map_right_iff, List.forall₂_same]
    intro r _
    simp only [Function.comp]
    by_cases h1 : rowIs name r = true
    · have hk := (rowIs_iff name r).mp h1
      have hp : r.project = name.1 := by rw [← hk]
      have hn : r.name = name.2 := by rw [← hk]
      by_cases h2 : triggerNotAfterStart r = true
      · have h3 := (triggerNotAfterStart_iff r).mp h2
        exact ⟨by simp [h1, h2, rowIs, hp, hn], fun _ => ⟨by simp [h1, h2, rowIs, hp, hn],
          fun _ => by simp [h1, h2, rowIs, hp, hn], fun hno => absurd h3 hno⟩,
          fun hne => absurd hk hne⟩
      · have h3 : ¬ ∃ s t, r.startTime = some s ∧ r.triggerTime = some t ∧ t ≤ s :=
          fun h => h2 ((triggerNotAfterStart_iff r).mpr h)
        exact ⟨by simp [h1, h2, rowIs, hp, hn], fun _ => ⟨by simp [h1, h2, rowIs, hp, hn],
          fun hyes => absurd hyes h3, fun _ => by simp [h1, h2, rowIs, hp, hn]⟩,
          fun hne => absurd hk hne⟩
    · have hk : ¬ (r.project, r.name) = name := fun h => h1 ((rowIs_iff name r).mpr h)
      exact ⟨by simp [h1], fun h => absurd h hk, fun _ => by simp [h1]⟩

/-- C11. Reaper writeback on the store row of the jobset whose child exited,
when the transaction commits: afterwards `startTime` is NULL unconditionally,
and `triggerTime` is NULL if beforehand `startTime` was non-NULL and
`triggerTime <= startTime`, and is otherwise unchanged (the rows of other
jobsets keep both columns); hence after `startEval` wrote `startTime = s`, a
trigger recorded at or before `s` is cleared and a trigger recorded after `s`
survives in the store. -/
theorem reaper_writeback (cfg : Config) (statusToString : Nat → String) (pid : Int)
    (status : Nat) (now : Int) (st : State) (tbl : List JobsetsRow) (j : Jobset)
    (hrun : 0 < st.runningEvals)
    (hj : st.jobsets.find? (fun k => decide (k.pid = pid)) = some j) :
    (∃ r, reaper cfg statusToString pid status now true st tbl = some r ∧
      List.Forall₂ (fun old new =>
          (new.project, new.name) = (old.project, old.name) ∧
          ((old.project, old.name) = j.name →
            new.startTime = none ∧
            ((∃ s t, old.startTime = some s ∧ old.triggerTime = some t ∧ t ≤ s) →
              new.triggerTime = none) ∧
            ((¬ ∃ s t, old.startTime = some s ∧ old.triggerTime = some t ∧ t ≤ s) →
              new.triggerTime = old.triggerTime)) ∧
          ((old.project, old.name) ≠ j.name →
            new.startTime = old.startTime ∧ new.triggerTime = old.triggerTime))
        tbl r.table) ∧
    (∀ s : Int, ∃ r, reaper cfg statusToString pid status now true st
        (startEvalTxn s j.name tbl) = some r ∧
      List.Forall₂ (fun old new =>
          (old.project, old.name) = j.name →
            new.startTime = none ∧
            ∀ t, old.triggerTime = some t →
              (t ≤ s → new.triggerTime = none) ∧ (s < t → new.triggerTime = some t))
        tbl r.table) := by
  have h0 : st.runningEvals ≠ 0 := by omega
  constructor
  · refine ⟨_, by unfold reaper; rw [if_neg h0], ?_⟩
    simp only [hj, if_true]
    exact reaperTxn_start_trigger statusToString j.name status now tbl
  · intro s
    refine ⟨_, by unfold reaper; rw [if_neg h0], ?_⟩
    simp only [hj, if_true]
    have h := reaperTxn_start_trigger statusToString j.name status now (startEvalTxn s j.name tbl)
    unfold startEvalTxn at h ⊢
    rw [List.forall₂_map_left_iff] at h
    refine h.imp ?_
    intro old new hrow hkey
    have hr : rowIs j.name old = true := (rowIs_iff j.name old).mpr hkey
    rw [if_pos hr] at hrow
    obtain ⟨_, hmatch, _⟩ := hrow
    obtain ⟨hstart, hclear, hkeep⟩ := hmatch hkey
    refine ⟨hstart, ?_⟩
    intro t ht
    constructor
    · intro hle
      exact hclear ⟨s, t, rfl, ht, hle⟩
    · intro hlt
      rw [← ht]
      apply hkeep
      rintro ⟨s1, t1, hs1, ht1, hle⟩
      simp only [Option.some.injEq] at hs1
      rw [ht] at ht1
      simp only [Option.some.injEq] at ht1
      omega

/-- Witness of C11: the evaluation of `nixos:trunk` was started at 1000; a
trigger of 990 is cleared by the writeback, a trigger of 1010 survives. -/
theorem reaper_writeback_witness :
    ((∃ r, reaper normalCfg (fun _ => "succeeded") 4711 0 2000 true
        { runningEvals := 1, jobsets := [trunkRunning] } [trunkStored] = some r ∧
      List.Forall₂ (fun old new =>
          (new.project, new.name) = (old.project, old.name) ∧
          ((old.project, old.name) = trunkRunning.name →
            new.startTime = none ∧
            ((∃ s t, old.startTime = some s ∧ old.triggerTime = some t ∧ t ≤ s) →
              new.triggerTime = none) ∧
            ((¬ ∃ s t, old.startTime = some s ∧ old.triggerTime = some t ∧ t ≤ s) →
              new.triggerTime = old.triggerTime)) ∧
          ((old.project, old.name) ≠ trunkRunning.name →
            new.startTime = old.startTime ∧ new.triggerTime = old.triggerTime))
        [trunkStored] r.table) ∧
    (∀ s : Int, ∃ r, reaper normalCfg (fun _ => "succeeded") 4711 0 2000 true
        { runningEvals := 1, jobsets := [trunkRunning] }
        (startEvalTxn s trunkRunning.name [trunkStored]) = some r ∧
      List.Forall₂ (fun old new =>
          (old.project, old.name) = trunkRunning.name →
            new.startTime = none ∧
            ∀ t, old.triggerTime = some t →
              (t ≤ s → new.triggerTime = none) ∧ (s < t → new.triggerTime = some t))
        [trunkStored] r.table)) ∧
    (reaper normalCfg (fun _ => "succeeded") 4711 0 2000 true
        { runningEvals := 1, jobsets := [trunkRunning] }
        [{ trunkStored with triggerTime := some 990 },
         { trunkStored with triggerTime := some 1010 }]).map (fun r => r.table) =
      some [{ trunkStored with triggerTime := none, startTime := none },
            { trunkStored with triggerTime := some 1010, startTime := none }] :=
  ⟨reaper_writeback normalCfg (fun _ => "succeeded") 4711 0 2000
    { runningEvals := 1, jobsets := [trunkRunning] } [trunkStored] trunkRunning
    (by decide) (by decide), by decide⟩

/-! ## C15: the clamp of `max_concurrent_evals` -/

/-- C15, refuted as stated. The value -1 is converted to `size_t` before
`std::max` sees it: `maxEvals` becomes 2^64 - 1, not `max(1, -1) = 1`. -/
theorem initMaxEvals_negative :
    ¬ ∀ v : Int, (initMaxEvals (some v) : Int) = max 1 v := by
  intro h
  have := h (-1)
  revert this
  decide

/-- C15, amended. `maxEvals` is at least 1 for every value of the option; for
every value `v` with `0 ≤ v < 2^64`, zero included, `maxEvals = max(1, v)`, and
with the option absent `maxEvals = 4`; a negative value `v ≥ -2^63` is
converted to `size_t` before the clamp and gives `maxEvals = 2^64 + v`. -/
theorem initMaxEvals_clamp :
    (∀ option : Option Int, 1 ≤ initMaxEvals option) ∧
    (∀ v : Int, 0 ≤ v → v < 18446744073709551616 →
      (initMaxEvals (some v) : Int) = max 1 v) ∧
    initMaxEvals none = 4 ∧
    (∀ v : Int, -9223372036854775808 ≤ v → v < 0 →
      (initMaxEvals (some v) : Int) = 18446744073709551616 + v) := by
  refine ⟨?_, ?_, by decide, ?_⟩
  · intro option
    unfold initMaxEvals
    exact le_max_left _ _
  · intro v h0 h1
    unfold initMaxEvals getIntOption toSizeT
    simp only [Option.getD_some]
    have hv : v % 18446744073709551616 = v := Int.emod_eq_of_lt h0 h1
    rw [hv]
    have h1' : ((1 : Int) % 18446744073709551616).toNat = 1 := by decide
    rw [h1']
    rw [Nat.cast_max, Int.toNat_of_nonneg h0]
    rfl
  · intro v h0 h1
    unfold initMaxEvals getIntOption toSizeT
    simp only [Option.getD_some]
    have hv : v % 18446744073709551616 = 18446744073709551616 + v := by omega
    rw [hv]
    have h1' : ((1 : Int) % 18446744073709551616).toNat = 1 := by decide
    rw [h1', Nat.cast_max, Int.toNat_of_nonneg (by omega)]
    exact max_eq_right (by omega)

/-- Witness of C15 amended: the values 0 and 7 of the option. -/
theorem initMaxEvals_clamp_witness :
    (initMaxEvals (some 0) : Int) = max 1 0 ∧ (initMaxEvals (some 7) : Int) = max 1 7 ∧
      (initMaxEvals (some (-3)) : Int) = 18446744073709551616 + (-3) :=
  ⟨initMaxEvals_clamp.2.1 0 (by decide) (by decide),
    initMaxEvals_clamp.2.1 7 (by decide) (by decide),
    initMaxEvals_clamp.2.2.2 (-3) (by decide) (by decide)⟩

/-! ## C17: when `readJobsets` exits -/

theorem readRows_seen_isEmpty (evalOne : Option JobsetName) (rows : List Row) (l : List Jobset) :
    (readRows evalOne rows (l, [])).2.isEmpty = true ↔
      ∀ row ∈ rows, ¬ (evalOne = none ∨ evalOne = some (row.project, row.name)) := by
  rw [List.isEmpty_iff]
  constructor
  · intro h row hrow hone
    have := readRows_seen_of_row evalOne rows l [] hrow hone
    rw [h] at this
    simp at this
  · intro h
    apply List.eq_nil_iff_forall_not_mem.mpr
    intro n hn
    rcases readRows_seen_sub evalOne rows l [] hn with h0 | ⟨row, hrow, hkey, hone⟩
    · simp at h0
    · exact h row hrow (by rw [hkey]; exact hone)

/-- C17. `readJobsets` exits the process with status 1 if and only if a single
jobset was requested (`evalOne` is set) and the snapshot contains no row with
that (project, name); in every other case it returns normally; it exits with no
other status. -/
theorem readJobsets_exit_iff (cfg : Config) (res : List Row) (st : State) :
    (readJobsets cfg res st = Except.error 1 ↔
      ∃ n, cfg.evalOne = some n ∧ ∀ row ∈ res, (row.project, row.name) ≠ n) ∧
    ((¬ ∃ n, cfg.evalOne = some n ∧ ∀ row ∈ res, (row.project, row.name) ≠ n) →
      ∃ s1, readJobsets cfg res st = Except.ok s1) ∧
    (∀ code, readJobsets cfg res st = Except.error code → code = 1) := by
  have hcond : (cfg.evalOne.isSome &&
      (readRows cfg.evalOne res (st.jobsets, [])).2.isEmpty) = true ↔
      ∃ n, cfg.evalOne = some n ∧ ∀ row ∈ res, (row.project, row.name) ≠ n := by
    rw [Bool.and_eq_true, readRows_seen_isEmpty]
    cases he : cfg.evalOne with
    | none => simp
    | some n =>
      simp only [Option.isSome_some, true_and, reduceCtorEq, false_or, Option.some.injEq,
        exists_eq_left']
      constructor
      · intro h row hrow hk
        exact h row hrow hk.symm
      · intro h row hrow hk
        exact h row hrow hk.symm
  unfold readJobsets
  simp only
  by_cases hc : (cfg.evalOne.isSome &&
      (readRows cfg.evalOne res (st.jobsets, [])).2.isEmpty) = true
  · rw [if_pos hc]
    refine ⟨⟨fun _ => hcond.mp hc, fun _ => rfl⟩, fun hno => absurd (hcond.mp hc) hno, ?_⟩
    intro code h
    simp only [Except.error.injEq] at h
    exact h.symm
  · rw [if_neg hc]
    refine ⟨⟨fun h => by simp at h, fun h => absurd (hcond.mpr h) hc⟩, fun _ => ⟨_, rfl⟩, ?_⟩
    intro code h
    simp at h

/-- Witness of C17: called for `nixos:trunk`, the sync of an empty snapshot
exits with status 1; the scheduler in normal mode returns from it. -/
theorem readJobsets_exit_iff_witness :
    readJobsets oneCfg [] State.init = Except.error 1 ∧
      ∃ s1, readJobsets normalCfg [] State.init = Except.ok s1 :=
  ⟨(readJobsets_exit_iff oneCfg [] State.init).1.mpr ⟨("nixos", "trunk"), rfl, by simp⟩,
    (readJobsets_exit_iff normalCfg [] State.init).2.1 (by simp [normalCfg])⟩

/-! ## C18: no hot loop after completion -/

/-- C18. No hot loop after completion: once the reaper has handled, at time
`now`, the exit of the child of jobset `j` (for every exit status, whether the
writeback commits or throws; registry with distinct keys, pid recorded only in
`j`, `runningEvals > 0`), the entry of `j` in the resulting state, as long as
no sync changes it, has `shouldEvaluate` false at every time `t` with
`now ≤ t < now + checkInterval`, and at every time at all when
`checkInterval ≤ 0`; in particular at the instant `now` itself. -/
theorem reaper_then_not_eligible (cfg : Config) (statusToString : Nat → String) (status : Nat)
    (now : Int) (commits : Bool) (tbl : List JobsetsRow) (st : State) (j : Jobset)
    (hrun : 0 < st.runningEvals) (hkeys : keysDistinct st.jobsets) (hj : j ∈ st.jobsets)
    (hpresent : j.pid ≠ -1) (honly : ∀ k ∈ st.jobsets, k.pid = j.pid → k.name = j.name) :
    ∃ r, reaper cfg statusToString j.pid status now commits st tbl = some r ∧
      (∃ k ∈ r.state.jobsets, k.name = j.name) ∧
      ∀ k ∈ r.state.jobsets, k.name = j.name →
        (∀ (db : EvalStore) (t : Int),
          (j.checkInterval ≤ 0 ∨ (now ≤ t ∧ t < now + j.checkInterval)) →
          shouldEvaluate db t k = false) ∧
        ∀ db : EvalStore, shouldEvaluate db now k = false := by
  have h0 : st.runningEvals ≠ 0 := by omega
  have _ := hpresent
  have hmap := reapJobsets_eq_map now hkeys hj rfl honly
  refine ⟨_, by unfold reaper; rw [if_neg h0], ?_, ?_⟩
  · simp only
    rw [hmap]
    exact ⟨_, List.mem_map.mpr ⟨j, hj, rfl⟩, by simp⟩
  · intro k hk hname
    simp only at hk
    rw [hmap] at hk
    obtain ⟨k0, hk0, hkeq⟩ := List.mem_map.mp hk
    have hn0 : k0.name = j.name := by
      rw [← hname, ← hkeq]
      split_ifs <;> rfl
    have hk0j : k0 = j := eq_of_name_eq hkeys hk0 hj hn0
    subst hk0j
    rw [if_pos rfl] at hkeq
    have hmain : ∀ (db : EvalStore) (t : Int),
        (k0.checkInterval ≤ 0 ∨ (now ≤ t ∧ t < now + k0.checkInterval)) →
        shouldEvaluate db t k = false := by
      intro db t hcond
      rw [← hkeq]
      unfold shouldEvaluate
      by_cases hci : k0.checkInterval ≤ 0
      · simp [hci]
      · have hlt : ¬ now + k0.checkInterval ≤ t := by omega
        simp [hci, hlt]
    refine ⟨hmain, ?_⟩
    intro db
    apply hmain
    by_cases hci : k0.checkInterval ≤ 0
    · exact Or.inl hci
    · exact Or.inr ⟨le_refl _, by omega⟩

/-- Witness of C18: the child of `nixos:trunk` (interval 300) exits at time
2000 and the writeback throws. -/
theorem reaper_then_not_eligible_witness :
    ∃ r, reaper normalCfg (fun _ => "failed") trunkRunning.pid 9 2000 false
        { runningEvals := 1, jobsets := [trunkRunning] } [] = some r ∧
      (∃ k ∈ r.state.jobsets, k.name = trunkRunning.name) ∧
      ∀ k ∈ r.state.jobsets, k.name = trunkRunning.name →
        (∀ (db : EvalStore) (t : Int),
          (trunkRunning.checkInterval ≤ 0 ∨ (2000 ≤ t ∧ t < 2000 + trunkRunning.checkInterval)) →
          shouldEvaluate db t k = false) ∧
        ∀ db : EvalStore, shouldEvaluate db 2000 k = false :=
  reaper_then_not_eligible normalCfg (fun _ => "failed") 9 2000 false []
    { runningEvals := 1, jobsets := [trunkRunning] } trunkRunning
    (by decide) (by unfold keysDistinct; decide) (by simp) (by decide)
    (by intro k hk _; simp at hk; rw [hk])

/-! ## C16: the timeout of the main loop -/

theorem sleepFold_le_init (now : Int) (l : List Jobset) (a : Int) :
    l.foldl (fun sleepTime i =>
      if i.pid = -1 ∧ i.checkInterval > 0 then
        min sleepTime (max 1 (i.lastCheckedTime - now + i.checkInterval))
      else sleepTime) a ≤ a := by
  induction l generalizing a with
  | nil => exact le_refl _
  | cons i is ih =>
    rw [List.foldl_cons]
    refine le_trans (ih _) ?_
    split_ifs
    · exact min_le_left _ _
    · exact le_refl _

theorem sleepFold_le_each (now : Int) (l : List Jobset) (a : Int) {j : Jobset} (hj : j ∈ l)
    (hp : j.pid = -1) (hc : j.checkInterval > 0) :
    l.foldl (fun sleepTime i =>
      if i.pid = -1 ∧ i.checkInterval > 0 then
        min sleepTime (max 1 (i.lastCheckedTime - now + i.checkInterval))
      else sleepTime) a ≤ max 1 (j.lastCheckedTime - now + j.checkInterval) := by
  induction l generalizing a with
  | nil => simp at hj
  | cons i is ih =>
    rw [List.foldl_cons]
    rcases List.mem_cons.mp hj with rfl | hj
    · refine le_trans (sleepFold_le_init now is _) ?_
      rw [if_pos ⟨hp, hc⟩]
      exact min_le_right _ _
    · exact ih _ hj

theorem sleepFold_attained (now : Int) (l : List Jobset) (a : Int) :
    l.foldl (fun sleepTime i =>
      if i.pid = -1 ∧ i.checkInterval > 0 then
        min sleepTime (max 1 (i.lastCheckedTime - now + i.checkInterval))
      else sleepTime) a = a ∨
    ∃ j ∈ l, j.pid = -1 ∧ j.checkInterval > 0 ∧
      l.foldl (fun sleepTime i =>
        if i.pid = -1 ∧ i.checkInterval > 0 then
          min sleepTime (max 1 (i.lastCheckedTime - now + i.checkInterval))
        else sleepTime) a = max 1 (j.lastCheckedTime - now + j.checkInterval) := by
  induction l generalizing a with
  | nil => exact Or.inl rfl
  | cons i is ih =>
    rw [List.foldl_cons]
    rcases ih (if i.pid = -1 ∧ i.checkInterval > 0 then
        min a (max 1 (i.lastCheckedTime - now + i.checkInterval)) else a) with h | ⟨j, hj, hp, hc, h⟩
    · rw [h]
      by_cases hi : i.pid = -1 ∧ i.checkInterval > 0
      · rw [if_pos hi]
        rcases min_choice a (max 1 (i.lastCheckedTime - now + i.checkInterval)) with hm | hm
        · exact Or.inl hm
        · exact Or.inr ⟨i, List.mem_cons_self _ _, hi.1, hi.2, hm⟩
      · rw [if_neg hi]
        exact Or.inl rfl
    · exact Or.inr ⟨j, List.mem_cons_of_mem _ hj, hp, hc, h⟩

/-- C16, refuted as stated. At time 1000 the ONE_AT_A_TIME jobset of
`gateJobset` has been due since 960 (and is held back by an unfinished build);
`sleepTime` is 1 second, so the loop wakes at 1001, after the moment the
jobset became due. -/
theorem sleepTime_after_due :
    ¬ ∀ (cfg : Config) (now : Int) (st : State), sleepTime cfg now st ≠ secondsMax →
        1 ≤ sleepTime cfg now st ∧
        ∀ j ∈ st.jobsets, j.pid = -1 → j.checkInterval > 0 →
          now + sleepTime cfg now st ≤ j.lastCheckedTime + j.checkInterval := by
  intro h
  have h1 := (h normalCfg 1000 { runningEvals := 0, jobsets := [gateJobset] } (by decide)).2
    gateJobset (by simp) (by decide) (by decide)
  revert h1
  decide

/-- C16, amended. The `sleepTime` computed at time `now` is the minimum, over
all jobsets with pid absent and `checkInterval > 0`, of
`max(1, lastCheckedTime + checkInterval - now)` seconds (no larger than any of
these values and, unless it is the indefinite `seconds::max()`, equal to one of
them), and it is indefinite when there is no such jobset or when `runningEvals
>= maxEvals`; consequently every `sleepTime` is at least 1 second, and a finite
one ends no later than the moment the nearest such jobset becomes due or one
second from now, whichever is later: a jobset that is already due is waited for
one second. -/
theorem sleepTime_spec (cfg : Config) (now : Int) (st : State) :
    (st.runningEvals ≥ cfg.maxEvals → sleepTime cfg now st = secondsMax) ∧
    ((∀ j ∈ st.jobsets, ¬ (j.pid = -1 ∧ j.checkInterval > 0)) →
      sleepTime cfg now st = secondsMax) ∧
    (st.runningEvals < cfg.maxEvals →
      (∀ j ∈ st.jobsets, j.pid = -1 → j.checkInterval > 0 →
        sleepTime cfg now st ≤ max 1 (j.lastCheckedTime + j.checkInterval - now)) ∧
      (sleepTime cfg now st = secondsMax ∨
        ∃ j ∈ st.jobsets, j.pid = -1 ∧ j.checkInterval > 0 ∧
          sleepTime cfg now st = max 1 (j.lastCheckedTime + j.checkInterval - now))) ∧
    1 ≤ sleepTime cfg now st ∧
    (sleepTime cfg now st ≠ secondsMax →
      ∀ j ∈ st.jobsets, j.pid = -1 → j.checkInterval > 0 →
        now + sleepTime cfg now st ≤ max (now + 1) (j.lastCheckedTime + j.checkInterval)) := by
  have hatt := sleepFold_attained now st.jobsets secondsMax
  have heach : st.runningEvals < cfg.maxEvals →
      ∀ j ∈ st.jobsets, j.pid = -1 → j.checkInterval > 0 →
        sleepTime cfg now st ≤ max 1 (j.lastCheckedTime + j.checkInterval - now) := by
    intro hlt j hj hp hc
    unfold sleepTime
    rw [if_pos hlt]
    have := sleepFold_le_each now st.jobsets secondsMax hj hp hc
    rw [show j.lastCheckedTime + j.checkInterval - now =
      j.lastCheckedTime - now + j.checkInterval by omega]
    exact this
  have hone : 1 ≤ sleepTime cfg now st := by
    unfold sleepTime
    split_ifs
    · rcases hatt with h | ⟨j, _, _, _, h⟩
      · rw [h]; decide
      · rw [h]; exact le_max_left _ _
    · decide
  refine ⟨?_, ?_, ?_, hone, ?_⟩
  · intro hge
    unfold sleepTime
    rw [if_neg (by omega)]
  · intro hnone
    unfold sleepTime
    split_ifs
    · rcases hatt with h | ⟨j, hj, hp, hc, _⟩
      · exact h
      · exact absurd ⟨hp, hc⟩ (hnone j hj)
    · rfl
  · intro hlt
    refine ⟨heach hlt, ?_⟩
    unfold sleepTime
    rw [if_pos hlt]
    rcases hatt with h | ⟨j, hj, hp, hc, h⟩
    · exact Or.inl h
    · refine Or.inr ⟨j, hj, hp, hc, ?_⟩
      rw [h, show j.lastCheckedTime + j.checkInterval - now =
        j.lastCheckedTime - now + j.checkInterval by omega]
  · intro hfin j hj hp hc
    have hlt : st.runningEvals < cfg.maxEvals := by
      by_contra hge
      apply hfin
      unfold sleepTime
      rw [if_neg hge]
    have := heach hlt j hj hp hc
    rcases le_total 1 (j.lastCheckedTime + j.checkInterval - now) with h | h
    · rw [max_eq_right h] at this
      exact le_trans (by omega) (le_max_right _ _)
    · rw [max_eq_left h] at this
      exact le_trans (by omega) (le_max_left _ _)

/-- Witness of C16 amended: one free slot, `nixos:trunk` checked at 0 with
interval 300 and the time 100: the loop sleeps 200 seconds. -/
theorem sleepTime_spec_witness :
    sleepTime normalCfg 100 { runningEvals := 0, jobsets := [trunkIdle] } ≤
        max 1 (trunkIdle.lastCheckedTime + trunkIdle.checkInterval - 100) ∧
      sleepTime normalCfg 100 { runningEvals := 0, jobsets := [trunkIdle] } = 200 ∧
      sleepTime normalCfg 100 { runningEvals := 4, jobsets := [trunkIdle] } = secondsMax :=
  ⟨((sleepTime_spec normalCfg 100 { runningEvals := 0, jobsets := [trunkIdle] }).2.2.1
      (by decide)).1 trunkIdle (by simp) (by decide) (by decide),
    by decide,
    (sleepTime_spec normalCfg 100 { runningEvals := 4, jobsets := [trunkIdle] }).1 (by decide)⟩

/-! ## C19: the comparator is a strict total order -/

theorem before_irrefl (a : Jobset) : before a a = false := by
  simp [before, nameLt_irrefl]

theorem before_trans {a b c : Jobset} (hab : before a b = true) (hbc : before b c = true) :
    before a c = true := by
  cases hac : before a c with
  | true => rfl
  | false =>
    have := before_negtrans (before_asymm hbc) hac
    rw [hab] at this
    exact absurd this (by simp)

theorem ascending_of_no_inversion {l : List Jobset} (hkeys : keysDistinct l)
    (hsorted : l.Pairwise (fun a b => before b a = false)) :
    l.Pairwise (fun a b => before a b = true) := by
  have hnd : l.Pairwise (fun a b => a.name ≠ b.name) := List.pairwise_map.mp hkeys
  refine (hsorted.and hnd).imp ?_
  intro a b h
  cases hab : before a b with
  | true => rfl
  | false => exact absurd (before_total hab h.1).2.2 h.2

theorem sorted_unique {l l1 l2 : List Jobset} (hkeys : keysDistinct l) (h1 : l1.Perm l)
    (h2 : l2.Perm l) (hs1 : l1.Pairwise (fun a b => before b a = false))
    (hs2 : l2.Pairwise (fun a b => before b a = false)) : l1 = l2 := by
  have hk1 : keysDistinct l1 := (h1.map Jobset.name).nodup_iff.mpr hkeys
  have hk2 : keysDistinct l2 := (h2.map Jobset.name).nodup_iff.mpr hkeys
  have hanti : IsAntisymm Jobset (fun a b => before a b = true) :=
    ⟨fun a b hab hba => by
      rw [before_asymm hab] at hba
      exact absurd hba (by simp)⟩
  exact List.eq_of_perm_of_sorted (h1.trans h2.symm) (ascending_of_no_inversion hk1 hs1)
    (ascending_of_no_inversion hk2 hs2)

/-- C19. The dispatch comparator is a strict total order on registry entries:
it is irreflexive and transitive, of two entries with different `JobsetName`
exactly one precedes the other, and every entry with `triggerTime != MAX` (a
`time_t`, so below MAX) precedes every entry with `triggerTime = MAX`; hence a
list of entries with distinct keys has only one arrangement without inversion,
so the sorted list of the selected jobsets, and with it the launch order of
`startEvals`, is determined by the registry contents (whatever algorithm
`std::sort` uses). -/
theorem before_strict_total_order :
    (∀ a : Jobset, before a a = false) ∧
    (∀ a b c : Jobset, before a b = true → before b c = true → before a c = true) ∧
    (∀ a b : Jobset, a.name ≠ b.name →
      (before a b = true ∧ before b a = false) ∨ (before b a = true ∧ before a b = false)) ∧
    (∀ a b : Jobset, a.triggerTime ≠ notTriggered → a.triggerTime ≤ notTriggered →
      b.triggerTime = notTriggered → before a b = true ∧ before b a = false) ∧
    (∀ l l1 l2 : List Jobset, keysDistinct l → l1.Perm l → l2.Perm l →
      l1.Pairwise (fun a b => before b a = false) →
      l2.Pairwise (fun a b => before b a = false) → l1 = l2) ∧
    (∀ (cfg : Config) (env : DispatchEnv) (st : State) (sorted : List Jobset),
      keysDistinct st.jobsets → sorted.Perm (selected cfg env st) →
      sorted.Pairwise (fun a b => before b a = false) →
      sorted = stdSort (selected cfg env st)) := by
  refine ⟨before_irrefl, fun a b c => before_trans, ?_, ?_, ?_, ?_⟩
  · intro a b hne
    cases hab : before a b with
    | true => exact Or.inl ⟨rfl, before_asymm hab⟩
    | false =>
      cases hba : before b a with
      | true => exact Or.inr ⟨rfl, rfl⟩
      | false => exact absurd (before_total hab hba).2.2 hne
  · intro a b ha hle hb
    have hab : before a b = true := by
      rw [before_eq_true_iff]
      left
      rw [hb]
      exact lt_of_le_of_ne hle ha
    exact ⟨hab, before_asymm hab⟩
  · intro l l1 l2 hkeys h1 h2 hs1 hs2
    exact sorted_unique hkeys h1 h2 hs1 hs2
  · intro cfg env st sorted hkeys hperm hsorted
    exact sorted_unique (keysDistinct_selected cfg env st hkeys) hperm (stdSort_perm _) hsorted
      (stdSort_sorted _)

/-- Witness of C19: the triggered jobset A precedes the untriggered C, and the
arrangement A, B, C of the scenario "concurrency cap" is the sorted one. -/
theorem before_strict_total_order_witness :
    (before capA capC = true ∧ before capC capA = false) ∧
      [capA, capB, capC] = stdSort (selected capCfg capEnv capState) :=
  ⟨before_strict_total_order.2.2.2.1 capA capC (by decide) (by decide) rfl,
    before_strict_total_order.2.2.2.2.2 capCfg capEnv capState [capA, capB, capC]
      (by unfold keysDistinct; decide) (by decide) (by decide)⟩

/-! ## C20: the reaper's counter does not underflow -/

theorem startLoop_mono (cfg : Config) (env : DispatchEnv) (l : List Jobset) (s s1 : State)
    (started : List JobsetName) (h : startLoop cfg env l s = some (s1, started)) :
    s.runningEvals ≤ s1.runningEvals := by
  induction l generalizing s started with
  | nil =>
    simp only [startLoop, Option.some.injEq, Prod.mk.injEq] at h
    rw [← h.1]
  | cons i rest ih =>
    unfold startLoop at h
    split_ifs at h with hge
    · simp only [Option.some.injEq, Prod.mk.injEq] at h
      rw [← h.1]
    · cases he : startEval env s i.name with
      | none => rw [he] at h; simp at h
      | some s2 =>
        rw [he] at h
        simp only at h
        cases hl : startLoop cfg env rest s2 with
        | none => rw [hl] at h; simp at h
        | some r =>
          obtain ⟨s3, st3⟩ := r
          rw [hl] at h
          simp only [Option.some.injEq, Prod.mk.injEq] at h
          obtain ⟨k, _, _, hs2⟩ := startEval_some he
          have h2 : s.runningEvals ≤ s2.runningEvals := by
            rw [hs2]; simp only; omega
          rw [h.1] at hl
          exact le_trans h2 (ih s2 st3 hl)

/-- C20. The reaper's counter never underflows: in the step relation in which
syncs and dispatch passes interleave with the single reaper between its wait
for `runningEvals > 0` and its second block, `runningEvals > 0` holds whenever
the reaper is about to run `assert(state->runningEvals)`, so the second block
runs to its end (for every pid, status, time and store); for a sync that
returns leaves `runningEvals` as it is, a dispatch pass never lowers it, and
only the reaper's second block decrements it. -/
theorem reaper_assert_holds (cfg : Config) :
    (∀ t : Threads, ThreadsReachable cfg t → t.reaperAt = ReaperAt.childWait →
      0 < t.state.runningEvals ∧
      ∀ (statusToString : Nat → String) (pid : Int) (status : Nat) (now : Int) (commits : Bool)
        (tbl : List JobsetsRow),
        ∃ r, reaper cfg statusToString pid status now commits t.state tbl = some r ∧
          r.state.runningEvals + 1 = t.state.runningEvals) ∧
    (∀ (res : List Row) (s s1 : State), readJobsets cfg res s = Except.ok s1 →
      s1.runningEvals = s.runningEvals) ∧
    (∀ (env : DispatchEnv) (s s1 : State) (started : List JobsetName),
      startEvals cfg env s = some (s1, started) → s.runningEvals ≤ s1.runningEvals) := by
  have hsync : ∀ (res : List Row) (s s1 : State), readJobsets cfg res s = Except.ok s1 →
      s1.runningEvals = s.runningEvals := fun res s s1 h => (readJobsets_ok h).1
  have hdisp : ∀ (env : DispatchEnv) (s s1 : State) (started : List JobsetName),
      startEvals cfg env s = some (s1, started) → s.runningEvals ≤ s1.runningEvals :=
    fun env s s1 started h => startLoop_mono cfg env _ s s1 started h
  have hinv : ∀ t : Threads, ThreadsReachable cfg t → t.reaperAt = ReaperAt.childWait →
      0 < t.state.runningEvals := by
    intro t ht
    induction ht with
    | init => intro h; simp at h
    | step _ hstep ih =>
      cases hstep with
      | sync res h =>
        intro hat
        simp only at hat ⊢
        rw [hsync _ _ _ h]
        exact ih hat
      | dispatch env started h =>
        intro hat
        simp only at hat ⊢
        exact lt_of_lt_of_le (ih hat) (hdisp _ _ _ _ h)
      | leaveFirstBlock _ hne =>
        intro _
        simp only
        omega
      | interrupted _ => intro hat; simp at hat
      | reap sts pid status now commits tbl _ h => intro hat; simp at hat
  refine ⟨?_, hsync, hdisp⟩
  intro t ht hat
  have hpos := hinv t ht hat
  refine ⟨hpos, ?_⟩
  intro sts pid status now commits tbl
  have h0 : t.state.runningEvals ≠ 0 := by omega
  refine ⟨_, by unfold reaper; rw [if_neg h0], ?_⟩
  simp only
  omega

theorem threads_trunkRunning :
    ThreadsReachable normalCfg
      { state := { runningEvals := 1, jobsets := [trunkRunning] },
        reaperAt := ReaperAt.childWait } :=
  ThreadsReachable.step
    (ThreadsReachable.step
      (ThreadsReachable.step ThreadsReachable.init
        (ThreadStep.sync [trunkRow]
          (show readJobsets normalCfg [trunkRow] State.init =
            Except.ok { runningEvals := 0, jobsets := [trunkIdle] } by rfl)))
      (ThreadStep.dispatch envAt1000 [("nixos", "trunk")]
        (show startEvals normalCfg envAt1000 { runningEvals := 0, jobsets := [trunkIdle] } =
          some ({ runningEvals := 1, jobsets := [trunkRunning] }, [("nixos", "trunk")])
          by decide)))
    (ThreadStep.leaveFirstBlock rfl (by decide))

/-- Witness of C20: after a sync and a dispatch pass the reaper leaves its
first block; at its assertion `runningEvals` is 1. -/
theorem reaper_assert_holds_witness :
    0 < (1 : Nat) ∧
      ∀ (statusToString : Nat → String) (pid : Int) (status : Nat) (now : Int) (commits : Bool)
        (tbl : List JobsetsRow),
        ∃ r, reaper normalCfg statusToString pid status now commits
            { runningEvals := 1, jobsets := [trunkRunning] } tbl = some r ∧
          r.state.runningEvals + 1 = 1 :=
  (reaper_assert_holds normalCfg).1 _ threads_trunkRunning rfl

/-! ## The sync, key by key -/

theorem lookup_cons (j : Jobset) (js : List Jobset) (m : JobsetName) :
    lookup (j :: js) m = if j.name = m then some j else lookup js m := by
  unfold lookup
  rw [List.find?_cons]
  by_cases h : j.name = m
  · simp [h]
  · simp [h]

theorem lookup_eq_none_of_lt {l : List Jobset} {n : JobsetName}
    (h : ∀ x ∈ l, nameLt n x.name = true) : lookup l n = none := by
  unfold lookup
  rw [List.find?_eq_none]
  intro x hx
  have := h x hx
  simp only [decide_eq_true_eq]
  intro he
  rw [he, nameLt_irrefl] at this
  exact absurd this (by simp)

theorem lookup_of_mem {l : List Jobset} {j : Jobset} (hkeys : keysDistinct l) (hj : j ∈ l) :
    lookup l j.name = some j :=
  find?_of_mem_distinct hkeys hj

theorem mem_of_lookup {l : List Jobset} {j : Jobset} {m : JobsetName}
    (h : lookup l m = some j) : j ∈ l ∧ j.name = m := by
  unfold lookup at h
  exact ⟨List.mem_of_find?_eq_some h, by simpa using List.find?_some h⟩

theorem lookup_upsert (row : Row) (n m : JobsetName) {l : List Jobset} (h : keysAscending l) :
    lookup (upsert row n l) m =
      if m = n then some (applyRow row ((lookup l n).getD (Jobset.fresh n))) else lookup l m := by
  induction l with
  | nil =>
    simp only [upsert, lookup_cons, applyRow_name]
    by_cases hm : m = n
    · subst hm
      simp [Jobset.fresh, lookup]
    · have : ¬ (Jobset.fresh n).name = m := fun he => hm he.symm
      simp [hm, this, lookup]
  | cons j js ih =>
    unfold keysAscending at h ih
    rw [List.pairwise_cons] at h
    obtain ⟨hhead, htail⟩ := h
    unfold upsert
    by_cases h1 : j.name = n
    · rw [if_pos h1]
      simp only [lookup_cons, applyRow_name]
      by_cases hm : m = n
      · subst hm
        simp [h1]
      · have : ¬ j.name = m := fun he => hm (he.symm.trans h1)
        simp [hm, this]
    · rw [if_neg h1]
      by_cases h2 : nameLt n j.name = true
      · rw [if_pos h2]
        have hnone : lookup (j :: js) n = none := by
          apply lookup_eq_none_of_lt
          intro x hx
          rcases List.mem_cons.mp hx with rfl | hx
          · exact h2
          · exact nameLt_trans h2 (hhead x hx)
        rw [hnone]
        simp only [lookup_cons, applyRow_name]
        by_cases hm : m = n
        · subst hm
          simp [Jobset.fresh]
        · have : ¬ (Jobset.fresh n).name = m := fun he => hm he.symm
          simp [hm, this]
      · rw [if_neg h2]
        simp only [lookup_cons, ih htail, h1, if_false]
        by_cases hm : m = n
        · subst hm
          simp [h1]
        · simp [hm]

theorem rowsFor_cons (evalOne : Option JobsetName) (m : JobsetName) (row : Row)
    (rest : List Row) :
    rowsFor evalOne m (row :: rest) =
      if (evalOne.isSome && decide (some (row.project, row.name) ≠ evalOne)) = true then
        rowsFor evalOne m rest
      else if (row.project, row.name) = m then row :: rowsFor evalOne m rest
      else rowsFor evalOne m rest := by
  unfold rowsFor
  rw [List.filter_cons]
  by_cases hs : (evalOne.isSome && decide (some (row.project, row.name) ≠ evalOne)) = true
  · rw [if_pos hs, hs]
    rfl
  · rw [if_neg hs]
    have hs' : (evalOne.isSome && decide (some (row.project, row.name) ≠ evalOne)) = false := by
      simpa using hs
    rw [hs']
    by_cases hm : (row.project, row.name) = m
    · rw [if_pos hm, decide_eq_true hm]
      rfl
    · rw [if_neg hm, decide_eq_false hm]
      rfl

theorem applyRows_cons (r : Row) (rs : List Row) (j : Jobset) :
    applyRows (r :: rs) j = applyRows rs (applyRow r j) := rfl

theorem applyRows_concat (rs : List Row) (r : Row) (j : Jobset) :
    applyRows (rs ++ [r]) j = applyRow r (applyRows rs j) := by
  unfold applyRows
  rw [List.foldl_append]
  rfl

theorem lookup_readRows (evalOne : Option JobsetName) (rows : List Row) (m : JobsetName)
    (l : List Jobset) (seen : List JobsetName) (h : keysAscending l) :
    lookup (readRows evalOne rows (l, seen)).1 m =
      if rowsFor evalOne m rows = [] then lookup l m
      else some (applyRows (rowsFor evalOne m rows) ((lookup l m).getD (Jobset.fresh m))) := by
  induction rows generalizing l seen with
  | nil => simp [readRows, rowsFor]
  | cons row rest ih =>
    simp only [readRows]
    rw [rowsFor_cons]
    by_cases hs : (evalOne.isSome && decide (some (row.project, row.name) ≠ evalOne)) = true
    · rw [if_pos hs, if_pos hs]
      exact ih l seen h
    · rw [if_neg hs, if_neg hs, ih _ _ (keysAscending_upsert row _ h), lookup_upsert row _ m h]
      by_cases hm : (row.project, row.name) = m
      · rw [if_pos hm, if_pos hm.symm]
        subst hm
        by_cases hr : rowsFor evalOne (row.project, row.name) rest = []
        · simp [hr, applyRows]
        · simp [hr, applyRows_cons]
      · have hm' : ¬ m = (row.project, row.name) := fun he => hm he.symm
        rw [if_neg hm, if_neg hm']

theorem readRows_seen_iff (evalOne : Option JobsetName) (rows : List Row) (l : List Jobset)
    (n : JobsetName) :
    n ∈ (readRows evalOne rows (l, [])).2 ↔ rowsFor evalOne n rows ≠ [] := by
  have hpass : ∀ row : Row, (evalOne = none ∨ evalOne = some (row.project, row.name)) ↔
      (evalOne.isSome && decide (some (row.project, row.name) ≠ evalOne)) = false := by
    intro row
    cases evalOne with
    | none => simp
    | some e =>
      simp only [reduceCtorEq, Option.some.injEq, false_or, Option.isSome_some, ne_eq,
        Bool.true_and, decide_eq_false_iff_not, not_not]
      exact eq_comm
  constructor
  · intro hn
    rcases readRows_seen_sub evalOne rows l [] hn with h0 | ⟨row, hrow, hkey, hone⟩
    · simp at h0
    · intro hnil
      have : row ∈ rowsFor evalOne n rows := by
        unfold rowsFor
        rw [List.mem_filter]
        refine ⟨hrow, ?_⟩
        have := (hpass row).mp (by rw [hkey]; exact hone)
        rw [this, decide_eq_true hkey]
        rfl
      rw [hnil] at this
      simp at this
  · intro hne
    obtain ⟨row, hmem⟩ := List.exists_mem_of_ne_nil _ hne
    unfold rowsFor at hmem
    rw [List.mem_filter] at hmem
    obtain ⟨hrow, hcond⟩ := hmem
    simp only [Bool.and_eq_true, Bool.not_eq_true', decide_eq_true_eq] at hcond
    rw [← hcond.2]
    exact readRows_seen_of_row evalOne rows l [] hrow ((hpass row).mpr hcond.1)

theorem readRows_seen_indep (evalOne : Option JobsetName) (rows : List Row)
    (l l1 : List Jobset) (seen : List JobsetName) :
    (readRows evalOne rows (l, seen)).2 = (readRows evalOne rows (l1, seen)).2 := by
  induction rows generalizing l l1 seen with
  | nil => rfl
  | cons row rest ih =>
    simp only [readRows]
    split_ifs
    · exact ih l l1 seen
    · exact ih _ _ _

theorem lookup_filter_seen (l : List Jobset) (seen : List JobsetName) (m : JobsetName) :
    lookup (l.filter (fun j => decide (j.name ∈ seen))) m =
      if m ∈ seen then lookup l m else none := by
  induction l with
  | nil => simp [lookup]
  | cons j js ih =>
    rw [List.filter_cons]
    by_cases hj : j.name ∈ seen
    · simp only [hj, decide_True, if_true]
      rw [lookup_cons, lookup_cons, ih]
      by_cases hm : j.name = m
      · rw [if_pos hm, if_pos hm, if_pos (hm ▸ hj)]
      · rw [if_neg hm, if_neg hm]
    · simp only [hj, decide_False, Bool.false_eq_true, if_false]
      rw [lookup_cons, ih]
      by_cases hm : j.name = m
      · have : m ∉ seen := hm ▸ hj
        simp [this]
      · rw [if_neg hm]

theorem keysAscending_readJobsets {cfg : Config} {res : List Row} {s s1 : State}
    (hkeys : keysAscending s.jobsets) (h : readJobsets cfg res s = Except.ok s1) :
    keysAscending s1.jobsets := by
  rw [(readJobsets_ok h).2]
  exact (keysAscending_readRows _ _ _ _ hkeys).filter _

/-- The entry of each key after a sync that returns. -/
theorem lookup_readJobsets {cfg : Config} {res : List Row} {s s1 : State}
    (hkeys : keysAscending s.jobsets) (h : readJobsets cfg res s = Except.ok s1)
    (m : JobsetName) :
    lookup s1.jobsets m =
      if rowsFor cfg.evalOne m res = [] then none
      else some (applyRows (rowsFor cfg.evalOne m res)
        ((lookup s.jobsets m).getD (Jobset.fresh m))) := by
  rw [(readJobsets_ok h).2, lookup_filter_seen, lookup_readRows _ _ _ _ _ hkeys]
  by_cases hr : rowsFor cfg.evalOne m res = []
  · have : m ∉ (readRows cfg.evalOne res (s.jobsets, [])).2 := by
      rw [readRows_seen_iff]
      simpa using hr
    rw [if_neg this, if_pos hr]
  · have : m ∈ (readRows cfg.evalOne res (s.jobsets, [])).2 := by
      rw [readRows_seen_iff]
      exact hr
    rw [if_pos this, if_neg hr, if_neg hr]

theorem ext_of_lookup {l1 l2 : List Jobset} (h1 : keysAscending l1) (h2 : keysAscending l2)
    (h : ∀ m, lookup l1 m = lookup l2 m) : l1 = l2 := by
  have hd1 := keysDistinct_of_ascending h1
  have hd2 := keysDistinct_of_ascending h2
  have hmem : ∀ e, e ∈ l1 ↔ e ∈ l2 := by
    intro e
    constructor
    · intro he
      have := lookup_of_mem hd1 he
      rw [h] at this
      exact (mem_of_lookup this).1
    · intro he
      have := lookup_of_mem hd2 he
      rw [← h] at this
      exact (mem_of_lookup this).1
  have hperm : l1.Perm l2 :=
    (List.perm_ext_iff_of_nodup (List.Nodup.of_map _ hd1) (List.Nodup.of_map _ hd2)).mpr hmem
  have hanti : IsAntisymm Jobset (fun a b => nameLt a.name b.name = true) :=
    ⟨fun a b hab hba => by
      rw [nameLt_asymm hab] at hba
      exact absurd hba (by simp)⟩
  exact List.eq_of_perm_of_sorted hperm h1 h2

/-! ## Several rows applied to one entry -/

theorem jobset_eq {a b : Jobset} (h1 : a.name = b.name)
    (h2 : a.evaluation_style = b.evaluation_style) (h3 : a.lastCheckedTime = b.lastCheckedTime)
    (h4 : a.triggerTime = b.triggerTime) (h5 : a.checkInterval = b.checkInterval)
    (h6 : a.pid = b.pid) : a = b := by
  cases a
  cases b
  simp only [Jobset.mk.injEq]
  exact ⟨h1, h2, h3, h4, h5, h6⟩

theorem applyRow_times (row : Row) (j : Jobset) :
    (applyRow row j).lastCheckedTime = row.lastCheckedTime.getD 0 ∧
      (applyRow row j).triggerTime = row.triggerTime.getD notTriggered ∧
      (applyRow row j).checkInterval = toInt32 row.checkInterval := by
  unfold applyRow
  simp only
  split_ifs <;> exact ⟨rfl, rfl, rfl⟩

theorem applyRow_style (row : Row) :
    (∀ j, (applyRow row j).evaluation_style = j.evaluation_style) ∨
      ∃ c, ∀ j, (applyRow row j).evaluation_style = some c := by
  unfold applyRow
  simp only
  by_cases h1 : row.jobset_enabled.getD 0 = 1
  · exact Or.inr ⟨EvaluationStyle.SCHEDULE, fun j => by rw [if_pos h1]⟩
  · by_cases h2 : row.jobset_enabled.getD 0 = 2
    · exact Or.inr ⟨EvaluationStyle.ONESHOT, fun j => by rw [if_neg h1, if_pos h2]⟩
    · by_cases h3 : row.jobset_enabled.getD 0 = 3
      · exact Or.inr ⟨EvaluationStyle.ONE_AT_A_TIME,
          fun j => by rw [if_neg h1, if_neg h2, if_pos h3]⟩
      · exact Or.inl (fun j => by rw [if_neg h1, if_neg h2, if_neg h3])

theorem applyRows_name (rs : List Row) (j : Jobset) : (applyRows rs j).name = j.name := by
  induction rs generalizing j with
  | nil => rfl
  | cons r rs ih => rw [applyRows_cons, ih, applyRow_name]

theorem applyRows_pid (rs : List Row) (j : Jobset) : (applyRows rs j).pid = j.pid := by
  induction rs generalizing j with
  | nil => rfl
  | cons r rs ih => rw [applyRows_cons, ih, applyRow_pid]

theorem applyRows_style (rs : List Row) :
    (∀ j, (applyRows rs j).evaluation_style = j.evaluation_style) ∨
      ∃ c, ∀ j, (applyRows rs j).evaluation_style = c := by
  induction rs with
  | nil => exact Or.inl (fun _ => rfl)
  | cons r rs ih =>
    rcases ih with h | ⟨c, h⟩
    · rcases applyRow_style r with h1 | ⟨c, h1⟩
      · exact Or.inl (fun j => by rw [applyRows_cons, h, h1])
      · exact Or.inr ⟨some c, fun j => by rw [applyRows_cons, h, h1]⟩
    · exact Or.inr ⟨c, fun j => by rw [applyRows_cons, h]⟩

theorem applyRows_last {rs : List Row} (hne : rs ≠ []) (j : Jobset) :
    ∃ row ∈ rs, ∃ k, applyRows rs j = applyRow row k := by
  rcases List.eq_nil_or_concat rs with h | ⟨init, b, h⟩
  · exact absurd h hne
  · rw [List.concat_eq_append] at h
    subst h
    exact ⟨b, by simp, applyRows init j, applyRows_concat init b j⟩

theorem applyRows_times_indep {rs : List Row} (hne : rs ≠ []) (j k : Jobset) :
    (applyRows rs j).lastCheckedTime = (applyRows rs k).lastCheckedTime ∧
      (applyRows rs j).triggerTime = (applyRows rs k).triggerTime ∧
      (applyRows rs j).checkInterval = (applyRows rs k).checkInterval := by
  rcases List.eq_nil_or_concat rs with h | ⟨init, b, h⟩
  · exact absurd h hne
  · rw [List.concat_eq_append] at h
    subst h
    rw [applyRows_concat, applyRows_concat]
    obtain ⟨a1, a2, a3⟩ := applyRow_times b (applyRows init j)
    obtain ⟨b1, b2, b3⟩ := applyRow_times b (applyRows init k)
    exact ⟨a1.trans b1.symm, a2.trans b2.symm, a3.trans b3.symm⟩

theorem applyRows_idem {rs : List Row} (hne : rs ≠ []) (j : Jobset) :
    applyRows rs (applyRows rs j) = applyRows rs j := by
  obtain ⟨t1, t2, t3⟩ := applyRows_times_indep hne (applyRows rs j) j
  refine jobset_eq ?_ ?_ t1 t2 t3 ?_
  · rw [applyRows_name]
  · rcases applyRows_style rs with h | ⟨c, h⟩
    · rw [h]
    · rw [h, h]
  · rw [applyRows_pid]

/-! ## C13: a sync is idempotent -/

/-- C13. Idempotence of sync: for every prior registry (its keys in ascending
order, as in every state of a run) and every store snapshot, if `readJobsets`
returns, then applying it once more with the same snapshot returns and yields
the same registry (and the same `runningEvals`), and the second application
removes no jobset, so that it logs no "forgetting jobset". -/
theorem readJobsets_idempotent (cfg : Config) (res : List Row) (st s1 : State)
    (hkeys : keysAscending st.jobsets) (h : readJobsets cfg res st = Except.ok s1) :
    readJobsets cfg res s1 = Except.ok s1 ∧ forgotten cfg res s1 = [] := by
  have hk1 : keysAscending s1.jobsets := keysAscending_readJobsets hkeys h
  have hseen : (readRows cfg.evalOne res (s1.jobsets, [])).2 =
      (readRows cfg.evalOne res (st.jobsets, [])).2 := readRows_seen_indep _ _ _ _ _
  have hcond : ¬ (cfg.evalOne.isSome &&
      (readRows cfg.evalOne res (s1.jobsets, [])).2.isEmpty) = true := by
    rw [hseen]
    intro hc
    unfold readJobsets at h
    simp only at h
    rw [if_pos hc] at h
    simp at h
  have h2 : readJobsets cfg res s1 = Except.ok
      { runningEvals := s1.runningEvals
        jobsets := List.filter
          (fun j => decide (j.name ∈ (readRows cfg.evalOne res (s1.jobsets, [])).2))
          (readRows cfg.evalOne res (s1.jobsets, [])).1 } := by
    unfold readJobsets
    simp only
    rw [if_neg hcond]
  have hk2 := keysAscending_readJobsets hk1 h2
  have hsame : (readRows cfg.evalOne res (s1.jobsets, [])).1.filter
      (fun j => decide (j.name ∈ (readRows cfg.evalOne res (s1.jobsets, [])).2)) =
      s1.jobsets := by
    apply ext_of_lookup hk2 hk1
    intro m
    have e2 := lookup_readJobsets hk1 h2 m
    have e1 := lookup_readJobsets hkeys h m
    simp only at e2
    rw [e2, e1]
    by_cases hr : rowsFor cfg.evalOne m res = []
    · rw [if_pos hr, if_pos hr]
    · rw [if_neg hr, if_neg hr]
      simp only [Option.getD_some]
      rw [applyRows_idem hr]
  constructor
  · rw [h2, hsame]
  · unfold forgotten
    simp only
    rw [List.map_eq_nil_iff, List.filter_eq_nil_iff]
    intro e he
    simp only [Bool.not_eq_true', decide_eq_false_iff_not, not_not]
    rcases mem_readRows cfg.evalOne res s1.jobsets [] he with hin | hs
    · rw [hseen]
      rw [(readJobsets_ok h).2] at hin
      have := (List.mem_filter.mp hin).2
      simpa using this
    · exact hs

/-- Witness of C13: the sync of `trunkRow` over the running `nixos:trunk`. -/
theorem readJobsets_idempotent_witness :
    readJobsets normalCfg [trunkRow] { runningEvals := 1, jobsets := [trunkRunning] } =
        Except.ok { runningEvals := 1, jobsets := [trunkRunning] } ∧
      forgotten normalCfg [trunkRow] { runningEvals := 1, jobsets := [trunkRunning] } = [] :=
  readJobsets_idempotent normalCfg [trunkRow] { runningEvals := 1, jobsets := [trunkRunning] }
    { runningEvals := 1, jobsets := [trunkRunning] } (by unfold keysAscending; decide) (by rfl)

/-! ## C12: the registry after a sync -/

theorem toInt32_of_fits {v : Int} (h : -2147483648 ≤ v ∧ v ≤ 2147483647) : toInt32 v = v := by
  unfold toInt32
  omega

theorem rowsFor_ne_nil_iff (evalOne : Option JobsetName) (n : JobsetName) (rows : List Row) :
    rowsFor evalOne n rows ≠ [] ↔
      ∃ row ∈ rows, (row.project, row.name) = n ∧ (evalOne = none ∨ evalOne = some n) := by
  rw [← readRows_seen_iff evalOne rows [] n]
  constructor
  · intro hn
    rcases readRows_seen_sub evalOne rows [] [] hn with h0 | h
    · simp at h0
    · exact h
  · rintro ⟨row, hrow, hkey, hone⟩
    rw [← hkey]
    exact readRows_seen_of_row evalOne rows [] [] hrow (by rw [hkey]; exact hone)

theorem mem_rowsFor {evalOne : Option JobsetName} {m : JobsetName} {rows : List Row} {row : Row}
    (h : row ∈ rowsFor evalOne m rows) : row ∈ rows ∧ (row.project, row.name) = m := by
  unfold rowsFor at h
  rw [List.mem_filter] at h
  simp only [Bool.and_eq_true, decide_eq_true_eq] at h
  exact ⟨h.1, h.2.2⟩

/-- The shape of every entry after a sync that returns: the rows of its key
applied to the entry the key had before, or to a fresh one. -/
theorem entry_after_sync {cfg : Config} {res : List Row} {st s1 : State}
    (hkeys : keysAscending st.jobsets) (h : readJobsets cfg res st = Except.ok s1)
    {e : Jobset} (he : e ∈ s1.jobsets) :
    rowsFor cfg.evalOne e.name res ≠ [] ∧
      e = applyRows (rowsFor cfg.evalOne e.name res)
        ((lookup st.jobsets e.name).getD (Jobset.fresh e.name)) := by
  have hk1 := keysDistinct_of_ascending (keysAscending_readJobsets hkeys h)
  have hl := lookup_of_mem hk1 he
  rw [lookup_readJobsets hkeys h e.name] at hl
  by_cases hr : rowsFor cfg.evalOne e.name res = []
  · rw [if_pos hr] at hl
    exact absurd hl (by simp)
  · rw [if_neg hr] at hl
    exact ⟨hr, (Option.some.inj hl).symm⟩

/-- C12. Sync merge result: for every prior registry (keys in ascending order,
as in every state of a run) and every snapshot (its `checkInterval` values
representable in the `int` they are stored in) on which `readJobsets` returns,
the key set of the registry afterwards is exactly the set of (project, name)
pairs of the snapshot (of the requested jobset only, when `evalOne` is set);
the `lastCheckedTime`, `triggerTime` and `checkInterval` of each entry are
those of a row of its key (of its row, when the snapshot has one row of that
key), NULL `lastCheckedTime` read as 0 and NULL `triggerTime` as MAX; an entry
whose key was in the registry before keeps the pid it had, and an entry of a
new key has pid absent. -/
theorem readJobsets_merge (cfg : Config) (res : List Row) (st s1 : State)
    (hkeys : keysAscending st.jobsets)
    (hfit : ∀ row ∈ res, -2147483648 ≤ row.checkInterval ∧ row.checkInterval ≤ 2147483647)
    (h : readJobsets cfg res st = Except.ok s1) :
    keysAscending s1.jobsets ∧
    (∀ n, (∃ e ∈ s1.jobsets, e.name = n) ↔
      ∃ row ∈ res, (row.project, row.name) = n ∧ (cfg.evalOne = none ∨ cfg.evalOne = some n)) ∧
    (∀ e ∈ s1.jobsets,
      (∃ row ∈ res, (row.project, row.name) = e.name ∧
        e.lastCheckedTime = row.lastCheckedTime.getD 0 ∧
        e.triggerTime = row.triggerTime.getD notTriggered ∧
        e.checkInterval = row.checkInterval) ∧
      (∀ row ∈ res, (row.project, row.name) = e.name →
        (∀ row2 ∈ res, (row2.project, row2.name) = e.name → row2 = row) →
        e.lastCheckedTime = row.lastCheckedTime.getD 0 ∧
        e.triggerTime = row.triggerTime.getD notTriggered ∧
        e.checkInterval = row.checkInterval)) ∧
    (∀ e ∈ s1.jobsets,
      (∀ j ∈ st.jobsets, j.name = e.name → e.pid = j.pid) ∧
      ((∀ j ∈ st.jobsets, j.name ≠ e.name) → e.pid = -1)) := by
  have hk1 := keysAscending_readJobsets hkeys h
  have hrow : ∀ e ∈ s1.jobsets, ∃ row ∈ res, (row.project, row.name) = e.name ∧
      e.lastCheckedTime = row.lastCheckedTime.getD 0 ∧
      e.triggerTime = row.triggerTime.getD notTriggered ∧
      e.checkInterval = row.checkInterval := by
    intro e he
    obtain ⟨hne, heq⟩ := entry_after_sync hkeys h he
    obtain ⟨row, hrow, k, hk⟩ := applyRows_last hne
      ((lookup st.jobsets e.name).getD (Jobset.fresh e.name))
    obtain ⟨hin, hkey⟩ := mem_rowsFor hrow
    obtain ⟨t1, t2, t3⟩ := applyRow_times row k
    rw [← hk, ← heq] at t1 t2 t3
    exact ⟨row, hin, hkey, t1, t2, by rw [t3, toInt32_of_fits (hfit row hin)]⟩
  refine ⟨hk1, ?_, ?_, ?_⟩
  · intro n
    rw [← rowsFor_ne_nil_iff]
    constructor
    · rintro ⟨e, he, hn⟩
      rw [← hn]
      exact (entry_after_sync hkeys h he).1
    · intro hne
      have hl := lookup_readJobsets hkeys h n
      rw [if_neg hne] at hl
      exact ⟨_, (mem_of_lookup hl).1, (mem_of_lookup hl).2⟩
  · intro e he
    refine ⟨hrow e he, ?_⟩
    intro row _ _ huniq
    obtain ⟨row0, hin0, hkey0, hf⟩ := hrow e he
    rw [← huniq row0 hin0 hkey0]
    exact hf
  · intro e he
    obtain ⟨_, heq⟩ := entry_after_sync hkeys h he
    have hpid : e.pid = ((lookup st.jobsets e.name).getD (Jobset.fresh e.name)).pid := by
      conv_lhs => rw [heq]
      rw [applyRows_pid]
    constructor
    · intro j hj hn
      have := lookup_of_mem (keysDistinct_of_ascending hkeys) hj
      rw [hn] at this
      rw [hpid, this]
      rfl
    · intro hnone
      have : lookup st.jobsets e.name = none := by
        unfold lookup
        rw [List.find?_eq_none]
        intro x hx
        simpa using hnone x hx
      rw [hpid, this]
      rfl

/-- Witness of C12: a sync of `trunkRow` over the running `nixos:trunk`. -/
theorem readJobsets_merge_witness :
    keysAscending [trunkRunning] ∧
    (∀ n, (∃ e ∈ [trunkRunning], e.name = n) ↔
      ∃ row ∈ [trunkRow], (row.project, row.name) = n ∧
        (normalCfg.evalOne = none ∨ normalCfg.evalOne = some n)) ∧
    (∀ e ∈ [trunkRunning],
      (∃ row ∈ [trunkRow], (row.project, row.name) = e.name ∧
        e.lastCheckedTime = row.lastCheckedTime.getD 0 ∧
        e.triggerTime = row.triggerTime.getD notTriggered ∧
        e.checkInterval = row.checkInterval) ∧
      (∀ row ∈ [trunkRow], (row.project, row.name) = e.name →
        (∀ row2 ∈ [trunkRow], (row2.project, row2.name) = e.name → row2 = row) →
        e.lastCheckedTime = row.lastCheckedTime.getD 0 ∧
        e.triggerTime = row.triggerTime.getD notTriggered ∧
        e.checkInterval = row.checkInterval)) ∧
    (∀ e ∈ [trunkRunning],
      (∀ j ∈ [trunkRunning], j.name = e.name → e.pid = j.pid) ∧
      ((∀ j ∈ [trunkRunning], j.name ≠ e.name) → e.pid = -1)) :=
  readJobsets_merge normalCfg [trunkRow] { runningEvals := 1, jobsets := [trunkRunning] }
    { runningEvals := 1, jobsets := [trunkRunning] } (by unfold keysAscending; decide)
    (by intro row hrow; simp at hrow; subst hrow; decide) (by rfl)

/-! ## C14: entries without a style -/

end HydraEvaluator
